import Mathlib

/-!
# librepo `util.c`: path joining, URL helpers and checksum selection

A shallow embedding of the string routines of `src/librepo/util.c`
(`lr_pathconcat`, `lr_prepend_url_protocol`, `lr_url_without_path`,
`lr_is_local_path`, `lr_best_checksum`) together with theorems about them.

Conventions of the embedding:

* a C string is the `List Char` of its bytes before the terminating NUL;
  a `char *` that may be `NULL` is an `Option (List Char)`;
* a pointer into a string is the suffix of the string that starts there, so
  `ptr + 1` is the tail and `*ptr == '\0'` is the empty suffix;
* `size_t` quantities are `Nat`: every one of them is bounded by the total
  length of the argument strings plus their number;
* `realpath`, which reads the filesystem, is a parameter of the embedding.
-/

namespace Librepo

/-! ## libc / glib primitives used by the routines -/

/-- The macro `DIR_SEPARATOR` ("/"), as the single character it holds. -/
def DIR_SEPARATOR : Char := '/'

/-- The value of `strlen(DIR_SEPARATOR)`. -/
def separator_len : Nat := 1

/-- The function `strstr(haystack, needle)`: the suffix of `haystack` starting at the first
occurrence of `needle`, or `none` (NULL) when there is none. -/
def strstr : List Char → List Char → Option (List Char)
  | [], needle => if needle = [] then some [] else none
  | c :: t, needle =>
    if needle.isPrefixOf (c :: t) then some (c :: t) else strstr t needle

/-- The function `g_str_has_prefix(str, prefix)`. -/
def g_str_has_prefix (str pre : List Char) : Bool := pre.isPrefixOf str

/-! ## `lr_pathconcat` -/

/-- The loop `while (!strncmp(start, separator, separator_len)) start += separator_len;`
the pointer `start` is the suffix it points at. -/
def skipLeading : List Char → List Char
  | [] => []
  | c :: t => if c = DIR_SEPARATOR then skipLeading t else c :: t

/-- The loop
`while (start + separator_len <= end && !strncmp(end-separator_len, separator, separator_len))
   end -= separator_len;`
on the string at `start`; the argument and the result are the distance `end - start`. -/
def skipTrailing (start : List Char) : Nat → Nat
  | 0 => 0
  | n + 1 => if start[n]? = some DIR_SEPARATOR then skipTrailing start n else n + 1

/-- The call `strncpy(res + offset, src, n)` on the output buffer: the first `offset` bytes of
the buffer are kept and the first `n` bytes of `src` are placed after them. -/
def strncpyAt (res : List Char) (offset : Nat) (src : List Char) (n : Nat) : List Char :=
  res.take offset ++ src.take n

/-- The local variables of `lr_pathconcat` that live across loop iterations. -/
structure ConcatState where
  res : List Char
  offset : Nat
  is_first : Bool
  previous_was_empty : Bool
deriving DecidableEq, Repr

/-- The state before the main loop (`offset = 0`, `is_first = 1`, `previous_was_empty = 0`). -/
def ConcatState.init : ConcatState :=
  { res := [], offset := 0, is_first := true, previous_was_empty := false }

/-- One iteration of the main `while (1)` loop of `lr_pathconcat` on the element `current`. -/
def concatStep (st : ConcatState) (current : List Char) : ConcatState :=
  let current_len := current.length
  if current_len = 0 then
    { st with previous_was_empty := true }
  else
    let st := { st with previous_was_empty := false }
    -- Skip leading separators - except first element
    let start := if st.is_first = false then skipLeading current else current
    -- Skip trailing separators; `n` is `end - start`
    let n := skipTrailing start start.length
    if n = 0 then
      -- Element is filled only by separators
      { st with is_first := false }
    else
      -- Prepend separator - except first element
      let st :=
        if st.is_first = false then
          { st with res := strncpyAt st.res st.offset [DIR_SEPARATOR] separator_len,
                    offset := st.offset + separator_len }
        else
          { st with is_first := false }
      { st with res := strncpyAt st.res st.offset start n, offset := st.offset + n }

/-- The first loop of `lr_pathconcat`: `total_len`, the maximal length of the result. -/
def total_len (first : List Char) (rest : List (List Char)) : Nat :=
  rest.foldl (fun acc chunk => acc + (chunk.length + separator_len)) first.length

/-- The main loop run over all elements, `first` included. -/
def concatLoop (first : List Char) (rest : List (List Char)) : ConcatState :=
  (first :: rest).foldl concatStep ConcatState.init

/-- What a call of `lr_pathconcat` does: returns NULL, dies in an `assert`, or returns a string. -/
inductive PathResult where
  | null : PathResult
  | assertFailed : PathResult
  | str : List Char → PathResult
deriving DecidableEq, Repr

/-- The function `lr_pathconcat(first, ...)`: `first` is the first argument (`none` for NULL) and
`rest` the further arguments up to the terminating NULL. -/
def lr_pathconcat (first : Option (List Char)) (rest : List (List Char)) : PathResult :=
  match first with
  | none => PathResult.null
  | some first =>
    let total := total_len first rest
    if total = 0 then PathResult.str []
    else
      let st := concatLoop first rest
      if ¬ st.offset ≤ total then PathResult.assertFailed
      else if st.offset = 0 then PathResult.str first
      else
        -- If last element was empty string, append separator to the end
        let st :=
          if st.previous_was_empty ∧ st.is_first = false then
            { st with res := strncpyAt st.res st.offset [DIR_SEPARATOR] separator_len,
                      offset := st.offset + separator_len }
          else st
        if ¬ st.offset ≤ total then PathResult.assertFailed
        else PathResult.str (st.res.take st.offset)

/-! ## `lr_url_without_path` and `lr_is_local_path` -/

/-- The loop `while (*ptr != '\0' && *ptr != '/') ptr++;` of `lr_url_without_path`. -/
def skipHost : List Char → List Char
  | [] => []
  | c :: t => if c ≠ '/' then skipHost t else c :: t

/-- The function `lr_url_without_path(url)`. -/
def lr_url_without_path (url : Option (List Char)) : Option (List Char) :=
  match url with
  | none => none
  | some url =>
    -- Filesystem
    if g_str_has_prefix url "file:///".toList then some "file://".toList
    else if g_str_has_prefix url "file:/".toList then some "file://".toList
    else
      -- Skip protocol prefix (ftp://, http://, file://, etc.)
      let ptr := match strstr url "://".toList with
        | some p => p.drop 3
        | none => url
      -- Find end of the host name
      let ptr := skipHost ptr
      -- Calculate length of hostname: `ptr - url`
      let len := url.length - ptr.length
      some (url.take len)

/-- The function `lr_is_local_path(path)`. -/
def lr_is_local_path (path : Option (List Char)) : Bool :=
  match path with
  | none => false
  | some path =>
    if path = [] then false
    else if (strstr path "://".toList).isSome ∧ ¬ g_str_has_prefix path "file://".toList then false
    else true

/-! ## `lr_best_checksum` -/

/-- The two fields of `LrMetalinkHash` that `lr_best_checksum` reads; `none` is a NULL pointer. -/
structure LrMetalinkHash where
  type : Option (List Char)
  value : Option (List Char)
deriving DecidableEq, Repr

/-- The memory `lr_best_checksum` can reach: the candidate list and the two output cells
`*type` and `*value` of the caller. -/
structure ChecksumMem where
  list : List LrMetalinkHash
  type : Int
  value : Option (List Char)
deriving DecidableEq, Repr

/-- The body of the `for` loop of `lr_best_checksum` on one list element, acting on the pair
`(tmp_type, tmp_value)`.  The enumerator `LR_CHECKSUM_UNKNOWN` and the function
`lr_checksum_type` are declared outside this file and are parameters here. -/
def bestStep (LR_CHECKSUM_UNKNOWN : Int) (lr_checksum_type : List Char → Int)
    (tmp : Int × Option (List Char)) (hash : LrMetalinkHash) : Int × Option (List Char) :=
  match hash.type, hash.value with
  | some t, some v =>
    let ltype := lr_checksum_type t
    if ltype ≠ LR_CHECKSUM_UNKNOWN ∧ ltype > tmp.1 then (ltype, some v) else tmp
  | _, _ => tmp

/-- The function `lr_best_checksum(list, type, value)`: the returned `gboolean` and the memory
after the call.  The output pointers `type` and `value` are taken to be valid cells, which is
what the two `assert`s demand of the caller, and every list element carries a hash record. -/
def lr_best_checksum (LR_CHECKSUM_UNKNOWN : Int) (lr_checksum_type : List Char → Int)
    (mem : ChecksumMem) : Bool × ChecksumMem :=
  if mem.list = [] then (false, mem)
  else
    let tmp := mem.list.foldl (bestStep LR_CHECKSUM_UNKNOWN lr_checksum_type)
      (LR_CHECKSUM_UNKNOWN, none)
    if tmp.1 ≠ LR_CHECKSUM_UNKNOWN then
      (true, { mem with type := tmp.1, value := tmp.2 })
    else (false, mem)

/-- Modelled from the spec: the enumeration `LrChecksumType` and the table `lr_checksum_type`
are declared in the checksum module, which is not among the sources; this sample ranking has
the unknown rank `0` as its minimum, ranks `sha256` above `md5`, and maps every other tag to
unknown. -/
def sampleChecksumType (t : List Char) : Int :=
  if t = "md5".toList then 1 else if t = "sha256".toList then 4 else 0

/-! ## Reference notions used in the statements -/

/-- A string with its leading run of separators removed. -/
def trimLeading (s : List Char) : List Char := s.dropWhile (fun c => decide (c = '/'))

/-- A string with its trailing run of separators removed. -/
def trimTrailing (s : List Char) : List Char := s.rdropWhile (fun c => decide (c = '/'))

/-- A string with both its leading and its trailing run of separators removed. -/
def trimBoth (s : List Char) : List Char := trimTrailing (trimLeading s)

/-- The fragment holds at least one character other than the separator. -/
def HasContent (s : List Char) : Prop := ∃ c ∈ s, c ≠ '/'

instance (s : List Char) : Decidable (HasContent s) :=
  inferInstanceAs (Decidable (∃ c ∈ s, c ≠ '/'))

/-- The string holds a separator immediately followed by another separator. -/
def HasDoubleSep (s : List Char) : Prop := ['/', '/'] <:+: s

instance (s : List Char) : Decidable (HasDoubleSep s) :=
  inferInstanceAs (Decidable (['/', '/'] <:+: s))

/-- The bytes the main loop copies from the element `cur`: the trailing run of separators is
always dropped, the leading run only when `is_first` is already cleared. -/
def piece (is_first : Bool) (cur : List Char) : List Char :=
  if is_first then trimTrailing cur else trimBoth cur

/-- The buffer invariant of the main loop: `offset` is the number of bytes written. -/
def ConcatState.WF (st : ConcatState) : Prop := st.offset = st.res.length

/-- The invariant of the main loop: `offset` counts the bytes written, nothing is written while
`is_first` is still set, and the bytes written never end in a separator. -/
structure ConcatState.Inv (st : ConcatState) : Prop where
  wf : st.WF
  first_empty : st.is_first = true → st.res = []
  last_not_sep : st.res.getLast? ≠ some '/'

/-- The value `offset` has at the second `assert` when the loop ends in state `st`. -/
def finalLen (st : ConcatState) : Nat :=
  st.offset + (if st.previous_was_empty ∧ st.is_first = false then 1 else 0)

/-- The string `lr_pathconcat` hands back once the loop has ended in state `st`. -/
def finish (first : List Char) (st : ConcatState) : List Char :=
  if st.res = [] then first
  else if st.previous_was_empty then st.res ++ ['/'] else st.res

/-- The string `needle` occurs in `s` at index `k` and at no smaller index. -/
def IsFirstOcc (needle s : List Char) (k : Nat) : Prop :=
  needle <+: s.drop k ∧ ∀ j, j < k → ¬ needle <+: s.drop j

/-- The position at which the host scan of `lr_url_without_path` starts, in the words of the
specification: just after the first occurrence of "://", or at 0 when there is none. -/
def ScanStart (url : List Char) (p : Nat) : Prop :=
  (∃ k, IsFirstOcc "://".toList url k ∧ p = k + 3) ∨ (¬ "://".toList <:+: url ∧ p = 0)

/-- A candidate `lr_best_checksum` can select: it has a type tag and a value, and the tag maps
to a rank other than unknown. -/
def Usable (LR_CHECKSUM_UNKNOWN : Int) (lr_checksum_type : List Char → Int)
    (h : LrMetalinkHash) : Prop :=
  ∃ t v, h.type = some t ∧ h.value = some v ∧ lr_checksum_type t ≠ LR_CHECKSUM_UNKNOWN

/-- The pair `(tmp_type, tmp_value)` is the best of the candidates `l`: either nothing usable
was seen and the pair is still the initial one, or it is the rank and value of a usable
candidate whose rank no usable candidate exceeds and no earlier candidate with both fields
equals. -/
def BestOf (LR_CHECKSUM_UNKNOWN : Int) (lr_checksum_type : List Char → Int)
    (l : List LrMetalinkHash) (tmp : Int × Option (List Char)) : Prop :=
  (tmp = (LR_CHECKSUM_UNKNOWN, none) ∧
    ∀ g ∈ l, ¬ Usable LR_CHECKSUM_UNKNOWN lr_checksum_type g) ∨
  ∃ pre h post t v, l = pre ++ h :: post ∧ h.type = some t ∧ h.value = some v ∧
    lr_checksum_type t ≠ LR_CHECKSUM_UNKNOWN ∧ tmp = (lr_checksum_type t, some v) ∧
    (∀ g ∈ l, ∀ t' v', g.type = some t' → g.value = some v' →
      lr_checksum_type t' ≠ LR_CHECKSUM_UNKNOWN → lr_checksum_type t' ≤ lr_checksum_type t) ∧
    (∀ g ∈ pre, ∀ t' v', g.type = some t' → g.value = some v' →
      lr_checksum_type t' ≠ lr_checksum_type t)

/-! ## `lr_prepend_url_protocol`, embedded with `realpath` as a parameter -/

/-- The function `lr_prepend_url_protocol(path)`.  The libc call `realpath(path, NULL)` reads
the filesystem and the working directory; it is the parameter `realpath`, which answers `none`
(NULL) when the path cannot be resolved. -/
def lr_prepend_url_protocol (realpath : List Char → Option (List Char))
    (path : Option (List Char)) : Option (List Char) :=
  match path with
  | none => none
  | some path =>
    -- Protocol was specified
    if (strstr path "://".toList).isSome then some path
    else if g_str_has_prefix path "file:/".toList then some path
    -- Path is absolute path
    else if path.head? = some '/' then some ("file://".toList ++ path)
    else
      match realpath path with
      | none => none
      | some resolved_path => some ("file://".toList ++ resolved_path)

/-- A sample behaviour of `realpath`: the relative path "repo" resolves to "/srv/repo" and no
other path can be resolved. -/
def sampleRealpath (path : List Char) : Option (List Char) :=
  if path = "repo".toList then some "/srv/repo".toList else none

/-- A `realpath` that resolves nothing, as on an empty filesystem. -/
def noRealpath (_ : List Char) : Option (List Char) := none

/-- The number of positions of a string at which a separator is immediately followed by
another separator. -/
def countDoubleSep : List Char → Nat
  | [] => 0
  | a :: t => (if a = '/' ∧ t.head? = some '/' then 1 else 0) + countDoubleSep t

/-! ## Auxiliary lemmas -/

/-! ## The stripping loops -/

theorem skipLeading_eq_trimLeading (s : List Char) : skipLeading s = trimLeading s := by
  induction s with
  | nil => rfl
  | cons c t ih =>
    by_cases h : c = '/'
    · simp [skipLeading, trimLeading, DIR_SEPARATOR, h, List.dropWhile] at ih ⊢
      exact ih
    · simp [skipLeading, trimLeading, DIR_SEPARATOR, h, List.dropWhile]

theorem skipTrailing_le (s : List Char) (n : Nat) : skipTrailing s n ≤ n := by
  induction n with
  | zero => simp [skipTrailing]
  | succ n ih =>
    simp only [skipTrailing]
    split
    · exact Nat.le_succ_of_le ih
    · exact Nat.le_refl _

theorem skipTrailing_append (s t : List Char) (n : Nat) (h : n ≤ s.length) :
    skipTrailing (s ++ t) n = skipTrailing s n := by
  induction n with
  | zero => simp [skipTrailing]
  | succ n ih =>
    have hn : n < s.length := h
    simp only [skipTrailing]
    rw [List.getElem?_append_left hn, ih (Nat.le_of_lt hn)]

theorem take_skipTrailing (s : List Char) :
    s.take (skipTrailing s s.length) = trimTrailing s := by
  induction s using List.reverseRecOn with
  | nil => simp [skipTrailing, trimTrailing]
  | append_singleton s c ih =>
    have hlen : (s ++ [c]).length = s.length + 1 := by simp
    rw [hlen]
    simp only [skipTrailing]
    have hget : (s ++ [c])[s.length]? = some c := by simp
    rw [hget]
    unfold trimTrailing at ih ⊢
    rw [List.rdropWhile_concat]
    by_cases hc : c = '/'
    · subst hc
      simp only [DIR_SEPARATOR, if_true, decide_True]
      rw [skipTrailing_append s _ _ (Nat.le_refl _), ← ih]
      rw [List.take_append_of_le_length (skipTrailing_le s _)]
    · have hc2 : ¬ (some c = some DIR_SEPARATOR) := by simpa [DIR_SEPARATOR] using hc
      rw [if_neg hc2]
      simp [hc]

theorem concatStep_nil (st : ConcatState) :
    concatStep st [] = { st with previous_was_empty := true } := by
  simp [concatStep]

theorem concatStep_piece_nil (st : ConcatState) (cur : List Char) (hcur : cur ≠ [])
    (hp : piece st.is_first cur = []) :
    concatStep st cur = { st with is_first := false, previous_was_empty := false } := by
  have hlen : cur.length ≠ 0 := by simpa using hcur
  cases hf : st.is_first with
  | true =>
    rw [hf] at hp
    simp only [piece, if_true] at hp
    rw [← take_skipTrailing] at hp
    have h0 : skipTrailing cur cur.length = 0 := by
      rcases List.take_eq_nil_iff.mp hp with h | h
      · exact h
      · exact absurd h hcur
    simp [concatStep, hlen, hf, h0]
  | false =>
    rw [hf] at hp
    simp only [piece, trimBoth, Bool.false_eq_true, if_false] at hp
    rw [← skipLeading_eq_trimLeading, ← take_skipTrailing] at hp
    have h0 : skipTrailing (skipLeading cur) (skipLeading cur).length = 0 := by
      rcases List.take_eq_nil_iff.mp hp with h | h
      · exact h
      · rw [h]; rfl
    simp [concatStep, hlen, hf, h0]

theorem concatStep_piece (st : ConcatState) (cur : List Char) (hwf : st.WF)
    (hp : piece st.is_first cur ≠ []) :
    concatStep st cur =
      { res := st.res ++ (if st.is_first then [] else ['/']) ++ piece st.is_first cur,
        offset := (st.res ++ (if st.is_first then [] else ['/']) ++ piece st.is_first cur).length,
        is_first := false, previous_was_empty := false } := by
  have hcur : cur ≠ [] := by
    rintro rfl
    apply hp
    cases st.is_first <;> simp [piece, trimBoth, trimTrailing, trimLeading]
  have hlen : cur.length ≠ 0 := by simpa using hcur
  unfold ConcatState.WF at hwf
  cases hf : st.is_first with
  | true =>
    rw [hf] at hp
    simp only [piece, if_true] at hp ⊢
    rw [← take_skipTrailing] at hp ⊢
    have h0 : skipTrailing cur cur.length ≠ 0 := by
      intro h; rw [h] at hp; simp at hp
    have hle := skipTrailing_le cur cur.length
    simp [concatStep, hlen, hf, h0, strncpyAt, hwf, Nat.min_eq_left hle]
  | false =>
    rw [hf] at hp
    simp only [piece, trimBoth, Bool.false_eq_true, if_false] at hp ⊢
    rw [← skipLeading_eq_trimLeading, ← take_skipTrailing] at hp ⊢
    have h0 : skipTrailing (skipLeading cur) (skipLeading cur).length ≠ 0 := by
      intro h; rw [h] at hp; simp at hp
    have hle := skipTrailing_le (skipLeading cur) (skipLeading cur).length
    have htk : List.take (st.res.length + 1) (st.res ++ ['/']) = st.res ++ ['/'] := by
      apply List.take_of_length_le; simp
    simp [concatStep, hlen, hf, h0, strncpyAt, hwf, separator_len, DIR_SEPARATOR,
      Nat.min_eq_left hle, htk]
    omega

/-! ## Facts about the copied bytes -/

theorem trimTrailing_ne_nil_iff (s : List Char) : trimTrailing s ≠ [] ↔ HasContent s := by
  unfold trimTrailing HasContent
  rw [Ne, List.rdropWhile_eq_nil_iff]
  simp

theorem hasContent_trimLeading (s : List Char) : HasContent (trimLeading s) ↔ HasContent s := by
  induction s with
  | nil => simp [trimLeading]
  | cons c t ih =>
    by_cases h : c = '/'
    · have : trimLeading (c :: t) = trimLeading t := by simp [trimLeading, List.dropWhile, h]
      rw [this, ih]
      simp [HasContent, h]
    · have : trimLeading (c :: t) = c :: t := by simp [trimLeading, List.dropWhile, h]
      rw [this]

theorem piece_ne_nil_iff (b : Bool) (s : List Char) : piece b s ≠ [] ↔ HasContent s := by
  cases b
  · simp only [piece, trimBoth, Bool.false_eq_true, if_false]
    rw [trimTrailing_ne_nil_iff, hasContent_trimLeading]
  · simp only [piece, if_true]
    exact trimTrailing_ne_nil_iff s

theorem trimTrailing_getLast (s : List Char) : (trimTrailing s).getLast? ≠ some '/' := by
  intro h
  have hne : trimTrailing s ≠ [] := by
    intro h0; rw [h0] at h; simp at h
  have := List.rdropWhile_last_not (fun c => decide (c = '/')) s hne
  rw [List.getLast?_eq_getLast _ hne] at h
  unfold trimTrailing at h
  simp only [Option.some.injEq] at h
  simp [h] at this

theorem piece_getLast (b : Bool) (s : List Char) : (piece b s).getLast? ≠ some '/' := by
  cases b
  · simp only [piece, trimBoth, Bool.false_eq_true, if_false]
    exact trimTrailing_getLast _
  · simp only [piece, if_true]
    exact trimTrailing_getLast _

theorem trimLeading_head (s : List Char) : (trimLeading s).head? ≠ some '/' := by
  induction s with
  | nil => simp [trimLeading]
  | cons c t ih =>
    by_cases h : c = '/'
    · have : trimLeading (c :: t) = trimLeading t := by simp [trimLeading, List.dropWhile, h]
      rw [this]; exact ih
    · have : trimLeading (c :: t) = c :: t := by simp [trimLeading, List.dropWhile, h]
      rw [this]; simpa using h

theorem trimTrailing_initial (s : List Char) : trimTrailing s <+: s :=
  List.rdropWhile_prefix _ _

theorem trimLeading_final (s : List Char) : trimLeading s <:+ s :=
  List.dropWhile_suffix _

theorem trimBoth_head (s : List Char) : (trimBoth s).head? ≠ some '/' := by
  intro h
  obtain ⟨t, ht⟩ := trimTrailing_initial (trimLeading s)
  have h1 := trimLeading_head s
  unfold trimBoth at h
  cases hb : trimTrailing (trimLeading s) with
  | nil => rw [hb] at h; simp at h
  | cons c u =>
    rw [hb] at h ht
    rw [← ht] at h1
    simp at h h1
    exact h1 h

theorem piece_within (b : Bool) (s : List Char) : piece b s <:+: s := by
  cases b
  · simp only [piece, trimBoth, Bool.false_eq_true, if_false]
    exact (trimTrailing_initial _).isInfix.trans (trimLeading_final s).isInfix
  · simp only [piece, if_true]
    exact (trimTrailing_initial s).isInfix

theorem piece_length_le (b : Bool) (s : List Char) : (piece b s).length ≤ s.length :=
  (piece_within b s).length_le

/-! ## The main loop -/

/-- The three ways an iteration of the main loop can go. -/
theorem concatStep_cases (st : ConcatState) (cur : List Char) (hwf : st.WF) :
    (cur = [] ∧ concatStep st cur = { st with previous_was_empty := true }) ∨
    (cur ≠ [] ∧ ¬ HasContent cur ∧
      concatStep st cur = { st with is_first := false, previous_was_empty := false }) ∨
    (HasContent cur ∧ concatStep st cur =
      { res := st.res ++ (if st.is_first then [] else ['/']) ++ piece st.is_first cur,
        offset := (st.res ++ (if st.is_first then [] else ['/']) ++ piece st.is_first cur).length,
        is_first := false, previous_was_empty := false }) := by
  by_cases hcur : cur = []
  · left; subst hcur; exact ⟨rfl, concatStep_nil st⟩
  · by_cases hc : HasContent cur
    · right; right
      exact ⟨hc, concatStep_piece st cur hwf ((piece_ne_nil_iff _ _).mpr hc)⟩
    · right; left
      refine ⟨hcur, hc, concatStep_piece_nil st cur hcur ?_⟩
      by_contra hne
      exact hc ((piece_ne_nil_iff _ _).mp hne)

theorem ConcatState.init_inv : ConcatState.init.Inv :=
  ⟨rfl, fun _ => rfl, by simp [ConcatState.init]⟩

theorem concatStep_inv (st : ConcatState) (cur : List Char) (h : st.Inv) :
    (concatStep st cur).Inv := by
  rcases concatStep_cases st cur h.wf with ⟨_, e⟩ | ⟨_, _, e⟩ | ⟨hc, e⟩
  · rw [e]; exact ⟨h.wf, h.first_empty, h.last_not_sep⟩
  · rw [e]; exact ⟨h.wf, by simp, h.last_not_sep⟩
  · rw [e]
    refine ⟨rfl, by simp, ?_⟩
    have hp : piece st.is_first cur ≠ [] := (piece_ne_nil_iff _ _).mpr hc
    simp only
    rw [List.getLast?_append_of_ne_nil _ hp]
    exact piece_getLast _ _

theorem foldl_concatStep_inv (frags : List (List Char)) (st : ConcatState) (h : st.Inv) :
    (frags.foldl concatStep st).Inv := by
  induction frags generalizing st with
  | nil => exact h
  | cons f t ih => exact ih _ (concatStep_inv st f h)

theorem concatLoop_inv (first : List Char) (rest : List (List Char)) :
    (concatLoop first rest).Inv :=
  foldl_concatStep_inv _ _ ConcatState.init_inv

theorem finalLen_step (st : ConcatState) (cur : List Char) (h : st.Inv) :
    finalLen (concatStep st cur) ≤ finalLen st + (cur.length + 1) := by
  rcases concatStep_cases st cur h.wf with ⟨_, e⟩ | ⟨_, _, e⟩ | ⟨hc, e⟩
  · rw [e]; unfold finalLen; simp only; split <;> split <;> omega
  · rw [e]; unfold finalLen; simp only; split <;> split <;> omega
  · rw [e]; unfold finalLen
    have hl := piece_length_le st.is_first cur
    have hw := h.wf
    unfold ConcatState.WF at hw
    simp only [List.length_append]
    have : (if st.is_first then ([] : List Char) else ['/']).length ≤ 1 := by
      split <;> simp
    split <;> split <;> simp_all <;> omega

theorem finalLen_first (first : List Char) :
    finalLen (concatStep ConcatState.init first) ≤ first.length := by
  rcases concatStep_cases ConcatState.init first ConcatState.init_inv.wf with
    ⟨_, e⟩ | ⟨_, _, e⟩ | ⟨hc, e⟩
  · rw [e]; simp [finalLen, ConcatState.init]
  · rw [e]; simp [finalLen, ConcatState.init]
  · rw [e]
    have hl := piece_length_le true first
    simpa [finalLen, ConcatState.init] using hl

theorem finalLen_foldl (frags : List (List Char)) (st : ConcatState) (a : Nat) (h : st.Inv)
    (ha : finalLen st ≤ a) :
    finalLen (frags.foldl concatStep st) ≤
      frags.foldl (fun acc chunk => acc + (chunk.length + separator_len)) a := by
  induction frags generalizing st a with
  | nil => exact ha
  | cons f t ih =>
    simp only [List.foldl_cons]
    apply ih _ _ (concatStep_inv st f h)
    have := finalLen_step st f h
    simp only [separator_len]
    omega

/-- Both `assert(offset <= total_len)` of `lr_pathconcat` hold: even after the trailing separator
the offset is at most `total_len`. -/
theorem finalLen_concatLoop_le (first : List Char) (rest : List (List Char)) :
    finalLen (concatLoop first rest) ≤ total_len first rest := by
  unfold concatLoop total_len
  simp only [List.foldl_cons]
  exact finalLen_foldl rest _ _ (concatStep_inv _ _ ConcatState.init_inv) (finalLen_first first)

theorem offset_le_finalLen (st : ConcatState) : st.offset ≤ finalLen st := by
  unfold finalLen; omega

theorem length_le_foldl_total (rest : List (List Char)) (a : Nat) :
    a ≤ rest.foldl (fun acc chunk => acc + (chunk.length + separator_len)) a := by
  induction rest generalizing a with
  | nil => exact Nat.le_refl _
  | cons f t ih =>
    simp only [List.foldl_cons]
    exact Nat.le_trans (Nat.le_add_right _ _) (ih (a + (f.length + separator_len)))

/-- Closed form of `lr_pathconcat`: no assertion fails, and the result is read off the final
state of the loop. -/
theorem lr_pathconcat_eq (first : List Char) (rest : List (List Char)) :
    lr_pathconcat (some first) rest = PathResult.str (finish first (concatLoop first rest)) := by
  have hinv := concatLoop_inv first rest
  have hb := finalLen_concatLoop_le first rest
  have ho := offset_le_finalLen (concatLoop first rest)
  have hw := hinv.wf
  unfold ConcatState.WF at hw
  unfold lr_pathconcat
  simp only
  by_cases ht : total_len first rest = 0
  · rw [if_pos ht]
    have h0 : (concatLoop first rest).res = [] := by
      apply List.eq_nil_of_length_eq_zero; omega
    have hf : first = [] := by
      have : first.length ≤ total_len first rest := length_le_foldl_total rest _
      apply List.eq_nil_of_length_eq_zero; omega
    simp [finish, h0]
    exact hf
  · rw [if_neg ht]
    rw [if_neg (by omega)]
    by_cases hz : (concatLoop first rest).offset = 0
    · rw [if_pos hz]
      have h0 : (concatLoop first rest).res = [] := by
        apply List.eq_nil_of_length_eq_zero; omega
      simp [finish, h0]
    · rw [if_neg hz]
      have hne : (concatLoop first rest).res ≠ [] := by
        intro h0; rw [h0] at hw; exact hz hw
      have hfst : (concatLoop first rest).is_first = false := by
        cases hh : (concatLoop first rest).is_first with
        | false => rfl
        | true => exact absurd (hinv.first_empty hh) hne
      unfold finalLen at hb
      cases hpwe : (concatLoop first rest).previous_was_empty with
      | false =>
        have hb2 : (concatLoop first rest).offset ≤ total_len first rest := by omega
        simp [finish, hne, hpwe, hfst, hb2]
        rw [hw]
      | true =>
        rw [hpwe, hfst] at hb
        simp only [and_self, if_true] at hb
        have htk : List.take ((concatLoop first rest).offset + 1)
            (List.take (concatLoop first rest).offset (concatLoop first rest).res ++ ['/'])
            = (concatLoop first rest).res ++ ['/'] := by
          rw [hw]; simp
        simp [finish, hne, hpwe, hfst, strncpyAt, separator_len, DIR_SEPARATOR, hb, htk]

/-! ## Doubled separators -/

theorem hasDoubleSep_cons (x : Char) (s : List Char) :
    HasDoubleSep (x :: s) ↔ (x = '/' ∧ s.head? = some '/') ∨ HasDoubleSep s := by
  unfold HasDoubleSep
  rw [List.infix_cons_iff, List.cons_prefix_cons]
  cases s with
  | nil => simp
  | cons y t => simp [eq_comm]

theorem not_hasDoubleSep_nil : ¬ HasDoubleSep [] := by
  simp [HasDoubleSep]

theorem hasDoubleSep_append (a b : List Char) (h : HasDoubleSep (a ++ b)) :
    HasDoubleSep a ∨ HasDoubleSep b ∨ (a.getLast? = some '/' ∧ b.head? = some '/') := by
  induction a with
  | nil => right; left; simpa using h
  | cons x t ih =>
    rw [List.cons_append, hasDoubleSep_cons] at h
    rcases h with ⟨hx, hh⟩ | h
    · cases t with
      | nil =>
        right; right
        simp at hh
        simp [hx, hh]
      | cons y u =>
        left
        rw [hasDoubleSep_cons]
        left
        simpa [hx] using hh
    · rcases ih h with h1 | h2 | ⟨h3, h4⟩
      · left; rw [hasDoubleSep_cons]; right; exact h1
      · right; left; exact h2
      · right; right
        refine ⟨?_, h4⟩
        cases t with
        | nil => simp at h3
        | cons y u => simpa [List.getLast?_cons_cons] using h3

theorem hasDoubleSep_of_infix {p s : List Char} (hp : HasDoubleSep p) (h : p <:+: s) :
    HasDoubleSep s :=
  List.IsInfix.trans hp h

theorem hasDoubleSep_append_sep (res : List Char) (hl : res.getLast? ≠ some '/')
    (h : HasDoubleSep (res ++ ['/'])) : HasDoubleSep res := by
  rcases hasDoubleSep_append _ _ h with h1 | h2 | ⟨h3, _⟩
  · exact h1
  · rw [hasDoubleSep_cons] at h2
    simp [not_hasDoubleSep_nil] at h2
  · exact absurd h3 hl

theorem concatStep_double (st : ConcatState) (cur : List Char) (hinv : st.Inv)
    (h : HasDoubleSep (concatStep st cur).res) : HasDoubleSep st.res ∨ HasDoubleSep cur := by
  rcases concatStep_cases st cur hinv.wf with ⟨_, e⟩ | ⟨_, _, e⟩ | ⟨hc, e⟩
  · rw [e] at h; left; exact h
  · rw [e] at h; left; exact h
  · rw [e] at h
    simp only at h
    cases hf : st.is_first with
    | true =>
      rw [hf, hinv.first_empty hf] at h
      simp only [if_true, List.nil_append] at h
      right
      exact hasDoubleSep_of_infix h (piece_within _ _)
    | false =>
      rw [hf] at h
      simp only [Bool.false_eq_true, if_false] at h
      rcases hasDoubleSep_append _ _ h with h1 | h2 | ⟨_, h4⟩
      · left; exact hasDoubleSep_append_sep _ hinv.last_not_sep h1
      · right; exact hasDoubleSep_of_infix h2 (piece_within _ _)
      · exact absurd h4 (by simpa [piece] using trimBoth_head cur)

theorem foldl_concatStep_double (frags : List (List Char)) (st : ConcatState) (hinv : st.Inv)
    (h : HasDoubleSep (frags.foldl concatStep st).res) :
    HasDoubleSep st.res ∨ ∃ f ∈ frags, HasDoubleSep f := by
  induction frags generalizing st with
  | nil => left; exact h
  | cons f t ih =>
    rcases ih _ (concatStep_inv st f hinv) h with h1 | ⟨g, hg, hd⟩
    · rcases concatStep_double st f hinv h1 with h2 | h3
      · left; exact h2
      · right; exact ⟨f, List.mem_cons_self _ _, h3⟩
    · right; exact ⟨g, List.mem_cons_of_mem _ hg, hd⟩

theorem finish_double (first : List Char) (rest : List (List Char))
    (h : HasDoubleSep (finish first (concatLoop first rest))) :
    ∃ f ∈ first :: rest, HasDoubleSep f := by
  have hinv := concatLoop_inv first rest
  have key : HasDoubleSep (concatLoop first rest).res → ∃ f ∈ first :: rest, HasDoubleSep f := by
    intro hd
    rcases foldl_concatStep_double (first :: rest) _ ConcatState.init_inv hd with h1 | h2
    · exact absurd h1 not_hasDoubleSep_nil
    · exact h2
  unfold finish at h
  split at h
  · exact ⟨first, List.mem_cons_self _ _, h⟩
  · split at h
    · exact key (hasDoubleSep_append_sep _ hinv.last_not_sep h)
    · exact key h

/-! ## Empty fragments and fragments with content -/

theorem concatStep_after_empty (st : ConcatState) (cur : List Char) :
    concatStep (concatStep st []) cur = concatStep st cur := by
  rw [concatStep_nil]
  simp only [concatStep]

theorem foldl_concatStep_skip_empty (pre post : List (List Char)) (hpost : post ≠ [])
    (st : ConcatState) :
    (pre ++ [] :: post).foldl concatStep st = (pre ++ post).foldl concatStep st := by
  cases post with
  | nil => exact absurd rfl hpost
  | cons p post =>
    simp only [List.foldl_append, List.foldl_cons]
    rw [concatStep_after_empty]

theorem foldl_concatStep_res_of_no_content (frags : List (List Char)) (st : ConcatState)
    (hwf : st.WF) (h : ∀ f ∈ frags, ¬ HasContent f) :
    (frags.foldl concatStep st).res = st.res := by
  induction frags generalizing st with
  | nil => rfl
  | cons f t ih =>
    have hf : ¬ HasContent f := h f (List.mem_cons_self _ _)
    have ht : ∀ g ∈ t, ¬ HasContent g := fun g hg => h g (List.mem_cons_of_mem _ hg)
    simp only [List.foldl_cons]
    rcases concatStep_cases st f hwf with ⟨_, e⟩ | ⟨_, _, e⟩ | ⟨hc, _⟩
    · rw [e, ih _ (by exact hwf) ht]
    · rw [e, ih _ (by exact hwf) ht]
    · exact absurd hc hf

theorem concatStep_res_mono (st : ConcatState) (cur : List Char) (hwf : st.WF)
    (h : st.res ≠ []) : (concatStep st cur).res ≠ [] := by
  rcases concatStep_cases st cur hwf with ⟨_, e⟩ | ⟨_, _, e⟩ | ⟨_, e⟩
  · rw [e]; exact h
  · rw [e]; exact h
  · rw [e]; simp [h]

theorem foldl_concatStep_res_mono (frags : List (List Char)) (st : ConcatState) (hinv : st.Inv)
    (h : st.res ≠ []) : (frags.foldl concatStep st).res ≠ [] := by
  induction frags generalizing st with
  | nil => exact h
  | cons f t ih =>
    exact ih _ (concatStep_inv st f hinv) (concatStep_res_mono st f hinv.wf h)

theorem foldl_concatStep_res_of_content (frags : List (List Char)) (st : ConcatState)
    (hinv : st.Inv) (h : ∃ f ∈ frags, HasContent f) :
    (frags.foldl concatStep st).res ≠ [] := by
  induction frags generalizing st with
  | nil => obtain ⟨f, hf, _⟩ := h; simp at hf
  | cons f t ih =>
    simp only [List.foldl_cons]
    by_cases hc : HasContent f
    · apply foldl_concatStep_res_mono _ _ (concatStep_inv st f hinv)
      rw [concatStep_piece st f hinv.wf ((piece_ne_nil_iff _ _).mpr hc)]
      have := (piece_ne_nil_iff st.is_first f).mpr hc
      simp [this]
    · apply ih _ (concatStep_inv st f hinv)
      obtain ⟨g, hg, hgc⟩ := h
      rcases List.mem_cons.mp hg with rfl | hg
      · exact absurd hgc hc
      · exact ⟨g, hg, hgc⟩

theorem concatStep_pwe (st : ConcatState) (cur : List Char) (hwf : st.WF) :
    (concatStep st cur).previous_was_empty = decide (cur = []) := by
  rcases concatStep_cases st cur hwf with ⟨h, e⟩ | ⟨h, _, e⟩ | ⟨hc, e⟩
  · rw [e]; simp [h]
  · rw [e]; simp [h]
  · rw [e]
    have : cur ≠ [] := by
      rintro rfl
      obtain ⟨c, hc, _⟩ := hc
      simp at hc
    simp [this]

theorem foldl_concatStep_pwe (frags : List (List Char)) (st : ConcatState) (hinv : st.Inv)
    (l : List Char) (hl : frags.getLast? = some l) :
    (frags.foldl concatStep st).previous_was_empty = decide (l = []) := by
  induction frags using List.reverseRecOn with
  | nil => simp at hl
  | append_singleton t x _ =>
    rw [List.getLast?_concat] at hl
    simp only [Option.some.injEq] at hl
    subst hl
    rw [List.foldl_append]
    simp only [List.foldl_cons, List.foldl_nil]
    exact concatStep_pwe _ _ (foldl_concatStep_inv t st hinv).wf

theorem trimTrailing_eq_self (s : List Char) (h : s.getLast? ≠ some '/') :
    trimTrailing s = s := by
  unfold trimTrailing
  rw [List.rdropWhile_eq_self_iff]
  intro hne
  rw [List.getLast?_eq_getLast _ hne] at h
  simpa using h

theorem trimTrailing_append_sep (s : List Char) : trimTrailing (s ++ ['/']) = trimTrailing s := by
  unfold trimTrailing
  rw [List.rdropWhile_concat_pos]
  simp

theorem foldl_concatStep_all_content (frags : List (List Char)) (st : ConcatState)
    (hinv : st.Inv) (hf : st.is_first = false) (h : ∀ f ∈ frags, HasContent f) :
    (frags.foldl concatStep st).res = st.res ++ (frags.map (fun f => '/' :: trimBoth f)).flatten := by
  induction frags generalizing st with
  | nil => simp
  | cons f t ih =>
    have hc : HasContent f := h f (List.mem_cons_self _ _)
    have ht : ∀ g ∈ t, HasContent g := fun g hg => h g (List.mem_cons_of_mem _ hg)
    simp only [List.foldl_cons]
    have e := concatStep_piece st f hinv.wf ((piece_ne_nil_iff _ _).mpr hc)
    have hinv2 := concatStep_inv st f hinv
    rw [ih _ hinv2 (by rw [e]) ht, e]
    simp [hf, piece]

theorem total_len_eq (first : List Char) (rest : List (List Char)) :
    total_len first rest = first.length + (rest.map List.length).sum + rest.length := by
  unfold total_len
  generalize first.length = a
  induction rest generalizing a with
  | nil => simp
  | cons f t ih =>
    simp only [List.foldl_cons, List.map_cons, List.sum_cons, List.length_cons]
    rw [ih]
    simp only [separator_len]
    omega

theorem finish_length_le (first : List Char) (rest : List (List Char)) :
    (finish first (concatLoop first rest)).length ≤ total_len first rest := by
  have hinv := concatLoop_inv first rest
  have hb := finalLen_concatLoop_le first rest
  have hw := hinv.wf
  unfold ConcatState.WF at hw
  unfold finalLen at hb
  unfold finish
  split
  · exact length_le_foldl_total rest _
  · rename_i hne
    have hfst : (concatLoop first rest).is_first = false := by
      cases hh : (concatLoop first rest).is_first with
      | false => rfl
      | true => exact absurd (hinv.first_empty hh) hne
    split
    · rename_i hp
      rw [hp, hfst] at hb
      simp only [and_self, if_true] at hb
      simp only [List.length_append, List.length_singleton]
      omega
    · omega

/-! ## Theorems about `lr_pathconcat` -/

/-- C1 (as stated, refuted): the single fragment "a//b" is returned as "a//b", which holds a
doubled separator although the last fragment is not the empty string. -/
theorem lr_pathconcat_double_sep_counterexample :
    lr_pathconcat (some "a//b".toList) [] = PathResult.str "a//b".toList ∧
      HasDoubleSep "a//b".toList ∧ ["a//b".toList].getLast? ≠ some [] := by
  decide

/-- C2: when every fragment holds a character other than the separator, `lr_pathconcat` returns
the first fragment without its trailing separators, followed for each later fragment by one
separator and the fragment without its leading and trailing separators. -/
theorem lr_pathconcat_all_content (first : List Char) (rest : List (List Char))
    (h : ∀ f ∈ first :: rest, HasContent f) :
    lr_pathconcat (some first) rest =
      PathResult.str (trimTrailing first ++ (rest.map (fun f => '/' :: trimBoth f)).flatten) := by
  have hc : HasContent first := h first (List.mem_cons_self _ _)
  have ht : ∀ g ∈ rest, HasContent g := fun g hg => h g (List.mem_cons_of_mem _ hg)
  have hp : piece true first ≠ [] := (piece_ne_nil_iff _ _).mpr hc
  have e := concatStep_piece ConcatState.init first ConcatState.init_inv.wf hp
  have hinv1 := concatStep_inv ConcatState.init first ConcatState.init_inv
  have hres : (concatLoop first rest).res =
      trimTrailing first ++ (rest.map (fun f => '/' :: trimBoth f)).flatten := by
    unfold concatLoop
    simp only [List.foldl_cons]
    rw [foldl_concatStep_all_content rest _ hinv1 (by rw [e]) ht, e]
    simp [ConcatState.init, piece]
  have hne : (concatLoop first rest).res ≠ [] := by
    rw [hres]
    have : trimTrailing first ≠ [] := by simpa [piece] using hp
    simp [this]
  have hpwe : (concatLoop first rest).previous_was_empty = false := by
    have hl : (first :: rest).getLast? = some ((first :: rest).getLast (by simp)) :=
      List.getLast?_eq_getLast _ _
    unfold concatLoop
    rw [foldl_concatStep_pwe _ _ ConcatState.init_inv _ hl]
    have hmem := List.getLast_mem (l := first :: rest) (by simp)
    have hcl := h _ hmem
    have : (first :: rest).getLast (by simp) ≠ [] := by
      intro h0
      rw [h0] at hcl
      obtain ⟨c, hc, _⟩ := hcl
      simp at hc
    simp [this]
  rw [lr_pathconcat_eq]
  unfold finish
  rw [if_neg hne, hpwe, hres]
  rfl

/-- C2 at the two inputs named by the specification: join("a","b","c") = "a/b/c" and
join("/a/","/b/","/c/") = "/a/b/c". -/
theorem lr_pathconcat_all_content_witness :
    lr_pathconcat (some "a".toList) ["b".toList, "c".toList] = PathResult.str "a/b/c".toList ∧
    lr_pathconcat (some "/a/".toList) ["/b/".toList, "/c/".toList]
      = PathResult.str "/a/b/c".toList :=
  ⟨(lr_pathconcat_all_content "a".toList ["b".toList, "c".toList] (by decide)).trans
      (by decide),
   (lr_pathconcat_all_content "/a/".toList ["/b/".toList, "/c/".toList] (by decide)).trans
      (by decide)⟩

/-- C3: when some fragment holds a character other than the separator, the result ends with
exactly one separator if the last fragment is the empty string (it is the joined content of the
earlier fragments followed by one separator) and does not end with a separator if the last
fragment is non-empty; an empty fragment that is not the last one can be left out without
changing the result. -/
theorem lr_pathconcat_trailing_separator (first : List Char) (rest : List (List Char))
    (h : ∃ f ∈ first :: rest, HasContent f) :
    ∃ s, lr_pathconcat (some first) rest = PathResult.str s ∧
      ((first :: rest).getLast? = some [] →
        ∃ body, s = body ++ ['/'] ∧ body ≠ [] ∧ body.getLast? ≠ some '/' ∧
          ∀ front, rest = front ++ [[]] →
            ∃ s0, lr_pathconcat (some first) front = PathResult.str s0 ∧
              body = trimTrailing s0) ∧
      ((first :: rest).getLast? ≠ some [] → s.getLast? ≠ some '/') ∧
      (∀ pre post, rest = pre ++ [] :: post → post ≠ [] →
        lr_pathconcat (some first) (pre ++ post) = PathResult.str s) ∧
      (first = [] → ∀ x rest', rest = x :: rest' →
        lr_pathconcat (some x) rest' = PathResult.str s) := by
  have hinv := concatLoop_inv first rest
  have hne : (concatLoop first rest).res ≠ [] :=
    foldl_concatStep_res_of_content _ _ ConcatState.init_inv h
  refine ⟨_, lr_pathconcat_eq first rest, ?_, ?_, ?_, ?_⟩
  · intro hl
    have hpwe : (concatLoop first rest).previous_was_empty = true := by
      unfold concatLoop
      rw [foldl_concatStep_pwe _ _ ConcatState.init_inv _ hl]
      simp
    refine ⟨(concatLoop first rest).res, ?_, hne, hinv.last_not_sep, ?_⟩
    · unfold finish
      rw [if_neg hne, hpwe]
      rfl
    · intro front hfront
      refine ⟨_, lr_pathconcat_eq first front, ?_⟩
      have hres : (concatLoop first rest).res = (concatLoop first front).res := by
        subst hfront
        unfold concatLoop
        rw [← List.cons_append, List.foldl_append]
        simp only [List.foldl_cons, List.foldl_nil]
        rw [concatStep_nil]
      have hinv0 := concatLoop_inv first front
      rw [hres] at hne ⊢
      unfold finish
      rw [if_neg hne]
      split
      · rw [trimTrailing_append_sep, trimTrailing_eq_self _ hinv0.last_not_sep]
      · rw [trimTrailing_eq_self _ hinv0.last_not_sep]
  · intro hl
    have hpwe : (concatLoop first rest).previous_was_empty = false := by
      have hl2 : (first :: rest).getLast? = some ((first :: rest).getLast (by simp)) :=
        List.getLast?_eq_getLast _ _
      unfold concatLoop
      rw [foldl_concatStep_pwe _ _ ConcatState.init_inv _ hl2]
      rw [hl2] at hl
      simpa using hl
    unfold finish
    rw [if_neg hne, hpwe]
    exact hinv.last_not_sep
  · intro pre post hrest hpost
    rw [lr_pathconcat_eq]
    have : concatLoop first (pre ++ post) = concatLoop first rest := by
      subst hrest
      unfold concatLoop
      rw [← List.cons_append, ← List.cons_append]
      exact (foldl_concatStep_skip_empty (first :: pre) post hpost _).symm
    rw [this]
  · intro hfirst x rest' hrest
    rw [lr_pathconcat_eq]
    have : concatLoop x rest' = concatLoop first rest := by
      subst hfirst hrest
      unfold concatLoop
      simp only [List.foldl_cons]
      rw [concatStep_after_empty]
    rw [this]
    unfold finish
    rw [if_neg hne, if_neg hne]

/-- C3 at join("a","") = "a/": the hypothesis holds there and the result is the content "a"
followed by one separator. -/
theorem lr_pathconcat_trailing_separator_witness :
    (∃ f ∈ ["a".toList, "".toList], HasContent f) ∧
    ∃ s, lr_pathconcat (some "a".toList) ["".toList] = PathResult.str s ∧
      (["a".toList, "".toList].getLast? = some [] →
        ∃ body, s = body ++ ['/'] ∧ body ≠ [] ∧ body.getLast? ≠ some '/' ∧
          ∀ front, ["".toList] = front ++ [[]] →
            ∃ s0, lr_pathconcat (some "a".toList) front = PathResult.str s0 ∧
              body = trimTrailing s0) ∧
      (["a".toList, "".toList].getLast? ≠ some [] → s.getLast? ≠ some '/') ∧
      (∀ pre post, ["".toList] = pre ++ [] :: post → post ≠ [] →
        lr_pathconcat (some "a".toList) (pre ++ post) = PathResult.str s) ∧
      ("a".toList = [] → ∀ x rest', ["".toList] = x :: rest' →
        lr_pathconcat (some x) rest' = PathResult.str s) :=
  ⟨by decide, lr_pathconcat_trailing_separator "a".toList ["".toList] (by decide)⟩

/-- C4: when every fragment is empty or made of separators only, `lr_pathconcat` returns the
first fragment verbatim, however many such fragments follow it. -/
theorem lr_pathconcat_no_content (first : List Char) (rest : List (List Char))
    (h : ∀ f ∈ first :: rest, ∀ c ∈ f, c = '/') :
    lr_pathconcat (some first) rest = PathResult.str first := by
  rw [lr_pathconcat_eq]
  have hno : ∀ f ∈ first :: rest, ¬ HasContent f := by
    rintro f hf ⟨c, hc, hne⟩
    exact hne (h f hf c hc)
  have hres : (concatLoop first rest).res = [] :=
    foldl_concatStep_res_of_no_content _ _ ConcatState.init_inv.wf hno
  unfold finish
  rw [if_pos hres]

/-- C4 at join("///") = "///", join("") = "" and join("///", "", "/") = "///". -/
theorem lr_pathconcat_no_content_witness :
    lr_pathconcat (some "///".toList) [] = PathResult.str "///".toList ∧
    lr_pathconcat (some "".toList) [] = PathResult.str "".toList ∧
    lr_pathconcat (some "///".toList) ["".toList, "/".toList] = PathResult.str "///".toList :=
  ⟨lr_pathconcat_no_content "///".toList [] (by decide),
   lr_pathconcat_no_content "".toList [] (by decide),
   lr_pathconcat_no_content "///".toList ["".toList, "/".toList] (by decide)⟩

/-- C5: `lr_pathconcat` returns NULL when the first fragment is absent and only then: with a
first fragment it returns a string (no `assert` fails), the offset at the first and at the
second `assert(offset <= total_len)` is at most `total_len`, the returned string is no longer
than `total_len`, and `total_len` is the sum of the fragment lengths plus the number of
fragments after the first. -/
theorem lr_pathconcat_total (first : List Char) (rest : List (List Char)) :
    lr_pathconcat none rest = PathResult.null ∧
    (∃ s, lr_pathconcat (some first) rest = PathResult.str s ∧
      s.length ≤ total_len first rest) ∧
    (concatLoop first rest).offset ≤ total_len first rest ∧
    finalLen (concatLoop first rest) ≤ total_len first rest ∧
    total_len first rest = first.length + (rest.map List.length).sum + rest.length :=
  ⟨rfl, ⟨_, lr_pathconcat_eq first rest, finish_length_le first rest⟩,
    Nat.le_trans (offset_le_finalLen _) (finalLen_concatLoop_le first rest),
    finalLen_concatLoop_le first rest, total_len_eq first rest⟩

/-! ## The searching and scanning loops of the URL helpers -/

theorem g_str_has_prefix_iff (str pre : List Char) :
    g_str_has_prefix str pre = true ↔ pre <+: str := by
  unfold g_str_has_prefix
  exact List.isPrefixOf_iff_prefix

theorem strstr_some (hay needle p : List Char) (h : strstr hay needle = some p) :
    ∃ k, k ≤ hay.length ∧ p = hay.drop k ∧ IsFirstOcc needle hay k := by
  induction hay with
  | nil =>
    simp only [strstr] at h
    split at h
    · rename_i hn
      simp only [Option.some.injEq] at h
      subst h
      refine ⟨0, Nat.le_refl _, rfl, ?_, fun j hj => absurd hj (Nat.not_lt_zero _)⟩
      simp [hn]
    · simp at h
  | cons c t ih =>
    simp only [strstr] at h
    split at h
    · rename_i hpre
      simp only [Option.some.injEq] at h
      subst h
      refine ⟨0, Nat.zero_le _, rfl, ?_, fun j hj => absurd hj (Nat.not_lt_zero _)⟩
      simpa using List.isPrefixOf_iff_prefix.mp hpre
    · rename_i hpre
      obtain ⟨k, hk, hp, hocc, hmin⟩ := ih h
      refine ⟨k + 1, by simpa using hk, by simpa using hp, by simpa using hocc, ?_⟩
      intro j hj
      cases j with
      | zero =>
        intro hx
        exact hpre (List.isPrefixOf_iff_prefix.mpr (by simpa using hx))
      | succ j =>
        simpa using hmin j (by omega)

theorem strstr_none (hay needle : List Char) (h : strstr hay needle = none) :
    ¬ needle <:+: hay := by
  induction hay with
  | nil =>
    simp only [strstr] at h
    split at h
    · simp at h
    · rename_i hn
      simpa using hn
  | cons c t ih =>
    simp only [strstr] at h
    split at h
    · simp at h
    · rename_i hpre
      rw [List.infix_cons_iff]
      rintro (hx | hx)
      · exact hpre (List.isPrefixOf_iff_prefix.mpr hx)
      · exact ih h hx

theorem strstr_isSome_iff (hay needle : List Char) :
    (strstr hay needle).isSome = true ↔ needle <:+: hay := by
  constructor
  · intro h
    obtain ⟨p, hp⟩ := Option.isSome_iff_exists.mp h
    obtain ⟨k, _, _, hocc, _⟩ := strstr_some hay needle p hp
    exact hocc.isInfix.trans (List.drop_suffix k hay).isInfix
  · intro h
    cases hs : strstr hay needle with
    | none => exact absurd h (strstr_none hay needle hs)
    | some p => rfl

theorem skipHost_spec (s : List Char) :
    ∃ m, m ≤ s.length ∧ skipHost s = s.drop m ∧ (∀ i, i < m → s[i]? ≠ some '/') ∧
      (m < s.length → s[m]? = some '/') := by
  induction s with
  | nil => exact ⟨0, Nat.le_refl _, rfl, fun i hi => absurd hi (Nat.not_lt_zero _), fun h => absurd h (Nat.lt_irrefl _)⟩
  | cons c t ih =>
    by_cases hc : c = '/'
    · refine ⟨0, Nat.zero_le _, ?_, fun i hi => absurd hi (Nat.not_lt_zero _), ?_⟩
      · simp [skipHost, hc]
      · intro _; simp [hc]
    · obtain ⟨m, hm, hs, hno, hat⟩ := ih
      refine ⟨m + 1, by simpa using hm, ?_, ?_, ?_⟩
      · simp [skipHost, hc, hs]
      · intro i hi
        cases i with
        | zero => simpa using hc
        | succ i => simpa using hno i (by omega)
      · intro hlt
        simpa using hat (by simpa using hlt)

/-- What the scanning part of `lr_url_without_path` computes, for an input on which neither
`file:` test fires. -/
theorem lr_url_without_path_scan (url : List Char) (hfile : ¬ "file:/".toList <+: url) :
    ∃ p n, ScanStart url p ∧ lr_url_without_path (some url) = some (url.take n) ∧
      p ≤ n ∧ n ≤ url.length ∧ (∀ i, p ≤ i → i < n → url[i]? ≠ some '/') ∧
      (n < url.length → url[n]? = some '/') := by
  have h1 : g_str_has_prefix url "file:/".toList = false := by
    rw [← Bool.not_eq_true, g_str_has_prefix_iff]; exact hfile
  have h3 : g_str_has_prefix url "file:///".toList = false := by
    rw [← Bool.not_eq_true, g_str_has_prefix_iff]
    intro h
    apply hfile
    exact List.IsPrefix.trans (by decide) h
  unfold lr_url_without_path
  simp only [h1, h3, Bool.false_eq_true, if_false]
  cases hs : strstr url "://".toList with
  | none =>
    obtain ⟨m, hm, hsk, hno, hat⟩ := skipHost_spec url
    refine ⟨0, m, Or.inr ⟨strstr_none _ _ hs, rfl⟩, ?_, Nat.zero_le _, hm, ?_, hat⟩
    · simp only [hsk, List.length_drop]
      congr 2
      omega
    · intro i _ hi; exact hno i hi
  | some ptr =>
    obtain ⟨k, hk, hp, hocc⟩ := strstr_some _ _ _ hs
    have hk3 : k + 3 ≤ url.length := by
      have := hocc.1.length_le
      simp only [List.length_drop] at this
      have h3 : "://".toList.length = 3 := by decide
      omega
    obtain ⟨m, hm, hsk, hno, hat⟩ := skipHost_spec (ptr.drop 3)
    have hdrop : ptr.drop 3 = url.drop (k + 3) := by
      rw [hp, List.drop_drop]
    rw [hdrop] at hm hsk hno hat
    simp only [List.length_drop] at hm hat
    refine ⟨k + 3, k + 3 + m, Or.inl ⟨k, hocc, rfl⟩, ?_, Nat.le_add_right _ _, by omega, ?_, ?_⟩
    · simp only [hdrop, hsk, List.length_drop, List.drop_drop]
      congr 2
      omega
    · intro i hi1 hi2
      have := hno (i - (k + 3)) (by omega)
      rw [List.getElem?_drop] at this
      have e : k + 3 + (i - (k + 3)) = i := by omega
      rwa [e] at this
    · intro hlt
      have := hat (by omega)
      rwa [List.getElem?_drop] at this

/-! ## Theorems about `lr_url_without_path` and `lr_is_local_path` -/

/-- C6: for a url that does not begin with "file:/", `lr_url_without_path` returns the prefix `r`
of the input that ends just before the first '/' found at or after the scan start `p` (the end
of the first "://", or 0 when there is none), or the whole input when there is no such '/';
NULL gives NULL and every non-NULL url gives a non-NULL result. -/
theorem lr_url_without_path_host (url : List Char) (hfile : ¬ "file:/".toList <+: url) :
    lr_url_without_path none = none ∧
    (∀ u, lr_url_without_path (some u) ≠ none) ∧
    ∃ p r, ScanStart url p ∧ lr_url_without_path (some url) = some r ∧ r <+: url ∧
      p ≤ r.length ∧ (∀ i, p ≤ i → i < r.length → url[i]? ≠ some '/') ∧
      (r = url ∨ url[r.length]? = some '/') := by
  refine ⟨rfl, ?_, ?_⟩
  · intro u
    by_cases hu : "file:/".toList <+: u
    · have h1 : g_str_has_prefix u "file:/".toList = true := (g_str_has_prefix_iff _ _).mpr hu
      unfold lr_url_without_path
      simp only [h1, if_true]
      split <;> simp
    · obtain ⟨_, n, _, hr, _⟩ := lr_url_without_path_scan u hu
      rw [hr]
      simp
  · obtain ⟨p, n, hp, hr, hpn, hn, hno, hat⟩ := lr_url_without_path_scan url hfile
    have hlen : (url.take n).length = n := by
      rw [List.length_take]; omega
    refine ⟨p, url.take n, hp, hr, List.take_prefix _ _, by omega, ?_, ?_⟩
    · intro i h1 h2
      exact hno i h1 (by omega)
    · rcases Nat.lt_or_ge n url.length with hlt | hge
      · right; rw [hlen]; exact hat hlt
      · left; exact List.take_of_length_le hge

/-- C6 at "http://foo.bar/baz", which gives "http://foo.bar". -/
theorem lr_url_without_path_host_witness :
    ¬ "file:/".toList <+: "http://foo.bar/baz".toList ∧
    lr_url_without_path (some "http://foo.bar/baz".toList) = some "http://foo.bar".toList ∧
    (lr_url_without_path none = none ∧
      (∀ u, lr_url_without_path (some u) ≠ none) ∧
      ∃ p r, ScanStart "http://foo.bar/baz".toList p ∧
        lr_url_without_path (some "http://foo.bar/baz".toList) = some r ∧
        r <+: "http://foo.bar/baz".toList ∧
        p ≤ r.length ∧
        (∀ i, p ≤ i → i < r.length → "http://foo.bar/baz".toList[i]? ≠ some '/') ∧
        (r = "http://foo.bar/baz".toList ∨
          "http://foo.bar/baz".toList[r.length]? = some '/')) :=
  ⟨by decide, by decide, lr_url_without_path_host "http://foo.bar/baz".toList (by decide)⟩

/-- C7 (amended): `lr_url_without_path` returns the bare marker "file://" exactly for the
inputs that begin with "file:/", whatever follows that first '/': one, two, three or more
separators, a host or a path. -/
theorem lr_url_without_path_file_marker (url : List Char) :
    lr_url_without_path (some url) = some "file://".toList ↔ "file:/".toList <+: url := by
  constructor
  · intro h
    by_contra hfile
    obtain ⟨_, n, _, hr, _⟩ := lr_url_without_path_scan url hfile
    rw [hr] at h
    simp only [Option.some.injEq] at h
    apply hfile
    have h2 : "file://".toList <+: url := by
      rw [← h]; exact List.take_prefix _ _
    exact List.IsPrefix.trans (by decide) h2
  · intro hu
    have h1 : g_str_has_prefix url "file:/".toList = true := (g_str_has_prefix_iff _ _).mpr hu
    unfold lr_url_without_path
    simp only [h1, if_true]
    split <;> rfl

/-- C7 (as stated, refuted): "file://host/dir" is not handled by the scanning rule: the result
is "file://", not "file://host". -/
theorem lr_url_without_path_file_host_counterexample :
    lr_url_without_path (some "file://host/dir".toList) = some "file://".toList ∧
    lr_url_without_path (some "file://host/dir".toList) ≠ some "file://host".toList := by
  decide

/-- C8: `lr_is_local_path` answers true exactly for a non-NULL, non-empty string that either does
not contain "://" or begins with "file://"; "http://x" and "" are not local, "file://x" and
"/abs/path" are. -/
theorem lr_is_local_path_iff (path : Option (List Char)) :
    (lr_is_local_path path = true ↔
      ∃ s, path = some s ∧ s ≠ [] ∧ (¬ "://".toList <:+: s ∨ "file://".toList <+: s)) ∧
    lr_is_local_path (some "http://x".toList) = false ∧
    lr_is_local_path (some "".toList) = false ∧
    lr_is_local_path (some "file://x".toList) = true ∧
    lr_is_local_path (some "/abs/path".toList) = true := by
  refine ⟨?_, by decide, by decide, by decide, by decide⟩
  cases path with
  | none => simp [lr_is_local_path]
  | some s =>
    unfold lr_is_local_path
    simp only [Option.some.injEq, exists_eq_left']
    by_cases hs : s = []
    · simp [hs]
    · simp only [hs, if_false, ne_eq, not_false_eq_true, true_and]
      simp only [strstr_isSome_iff, g_str_has_prefix_iff]
      by_cases h1 : "://".toList <:+: s <;> by_cases h2 : "file://".toList <+: s <;> simp [h1, h2]

/-! ## The selection loop of `lr_best_checksum` -/

theorem bestStep_some (unk : Int) (ct : List Char → Int) (tmp : Int × Option (List Char))
    (h : LrMetalinkHash) (t v : List Char) (ht : h.type = some t) (hv : h.value = some v) :
    bestStep unk ct tmp h = if ct t ≠ unk ∧ ct t > tmp.1 then (ct t, some v) else tmp := by
  unfold bestStep
  rw [ht, hv]

theorem bestStep_of_not_usable (unk : Int) (ct : List Char → Int)
    (tmp : Int × Option (List Char)) (h : LrMetalinkHash) (hn : ¬ Usable unk ct h) :
    bestStep unk ct tmp h = tmp := by
  cases ht : h.type with
  | none => unfold bestStep; rw [ht]
  | some t =>
    cases hv : h.value with
    | none => unfold bestStep; rw [ht, hv]
    | some v =>
      rw [bestStep_some unk ct tmp h t v ht hv]
      have : ct t = unk := by
        by_contra hne
        exact hn ⟨t, v, ht, hv, hne⟩
      simp [this]

theorem bestOf_foldl (unk : Int) (ct : List Char → Int) (hmin : ∀ t, unk ≤ ct t)
    (l : List LrMetalinkHash) :
    BestOf unk ct l (l.foldl (bestStep unk ct) (unk, none)) := by
  induction l using List.reverseRecOn with
  | nil => left; exact ⟨rfl, by simp⟩
  | append_singleton l x ih =>
    rw [List.foldl_append]
    simp only [List.foldl_cons, List.foldl_nil]
    by_cases hx : Usable unk ct x
    · obtain ⟨tx, vx, htx, hvx, hux⟩ := hx
      rw [bestStep_some unk ct _ x tx vx htx hvx]
      rcases ih with ⟨e, hnone⟩ | ⟨pre, h, post, t, v, hl, ht, hv, hu, e, hmax, hearly⟩
      · rw [e]
        have hgt : ct tx > unk := lt_of_le_of_ne (hmin tx) (Ne.symm hux)
        simp only [hux, ne_eq, not_false_eq_true, hgt, and_self, if_true]
        right
        refine ⟨l, x, [], tx, vx, rfl, htx, hvx, hux, rfl, ?_, ?_⟩
        · intro g hg t' v' ht' hv' hu'
          rcases List.mem_append.mp hg with hg | hg
          · exact absurd ⟨t', v', ht', hv', hu'⟩ (hnone g hg)
          · simp only [List.mem_singleton] at hg
            subst hg
            rw [htx] at ht'
            simp only [Option.some.injEq] at ht'
            subst ht'
            exact le_refl _
        · intro g hg t' v' ht' hv' heq
          exact hnone g hg ⟨t', v', ht', hv', by rw [heq]; exact hux⟩
      · rw [e]
        by_cases hgt : ct tx > ct t
        · simp only [hux, ne_eq, not_false_eq_true, hgt, and_self, if_true]
          right
          refine ⟨l, x, [], tx, vx, rfl, htx, hvx, hux, rfl, ?_, ?_⟩
          · intro g hg t' v' ht' hv' hu'
            rcases List.mem_append.mp hg with hg | hg
            · exact le_of_lt (lt_of_le_of_lt (hmax g hg t' v' ht' hv' hu') hgt)
            · simp only [List.mem_singleton] at hg
              subst hg
              rw [htx] at ht'
              simp only [Option.some.injEq] at ht'
              subst ht'
              exact le_refl _
          · intro g hg t' v' ht' hv' heq
            have hu' : ct t' ≠ unk := by rw [heq]; exact hux
            have := hmax g hg t' v' ht' hv' hu'
            rw [heq] at this
            exact absurd hgt (not_lt.mpr this)
        · simp only [hgt, and_false, if_false]
          right
          refine ⟨pre, h, post ++ [x], t, v, by rw [hl]; simp, ht, hv, hu, rfl, ?_, hearly⟩
          intro g hg t' v' ht' hv' hu'
          rcases List.mem_append.mp hg with hg | hg
          · exact hmax g hg t' v' ht' hv' hu'
          · simp only [List.mem_singleton] at hg
            subst hg
            rw [htx] at ht'
            simp only [Option.some.injEq] at ht'
            subst ht'
            exact not_lt.mp hgt
    · rw [bestStep_of_not_usable unk ct _ x hx]
      rcases ih with ⟨e, hnone⟩ | ⟨pre, h, post, t, v, hl, ht, hv, hu, e, hmax, hearly⟩
      · left
        refine ⟨e, ?_⟩
        intro g hg
        rcases List.mem_append.mp hg with hg | hg
        · exact hnone g hg
        · simp only [List.mem_singleton] at hg
          subst hg
          exact hx
      · right
        refine ⟨pre, h, post ++ [x], t, v, by rw [hl]; simp, ht, hv, hu, e, ?_, hearly⟩
        intro g hg t' v' ht' hv' hu'
        rcases List.mem_append.mp hg with hg | hg
        · exact hmax g hg t' v' ht' hv' hu'
        · simp only [List.mem_singleton] at hg
          subst hg
          exact absurd ⟨t', v', ht', hv', hu'⟩ hx

theorem lr_best_checksum_eq (unk : Int) (ct : List Char → Int) (mem : ChecksumMem) :
    lr_best_checksum unk ct mem =
      if (mem.list.foldl (bestStep unk ct) (unk, none)).1 ≠ unk then
        (true, { mem with type := (mem.list.foldl (bestStep unk ct) (unk, none)).1,
                          value := (mem.list.foldl (bestStep unk ct) (unk, none)).2 })
      else (false, mem) := by
  unfold lr_best_checksum
  by_cases hl : mem.list = []
  · simp [hl]
  · simp only [hl, if_false]

theorem sampleChecksumType_nonneg (t : List Char) : (0 : Int) ≤ sampleChecksumType t := by
  unfold sampleChecksumType
  split
  · decide
  · split <;> decide

/-! ## Theorems about `lr_best_checksum` -/

/-- C9: with the unknown rank the least rank, `lr_best_checksum` reports success exactly when
the list holds a candidate with a type tag, a value and a known tag; when it reports failure
(empty list, or no such candidate) the memory, the caller's two output cells included, is
unchanged; the list is never modified. -/
theorem lr_best_checksum_success_iff (unk : Int) (ct : List Char → Int)
    (hmin : ∀ t, unk ≤ ct t) (mem : ChecksumMem) :
    ((lr_best_checksum unk ct mem).1 = true ↔ ∃ h ∈ mem.list, Usable unk ct h) ∧
    ((lr_best_checksum unk ct mem).1 = false → (lr_best_checksum unk ct mem).2 = mem) ∧
    (lr_best_checksum unk ct mem).2.list = mem.list := by
  have hb := bestOf_foldl unk ct hmin mem.list
  rw [lr_best_checksum_eq]
  refine ⟨?_, ?_, ?_⟩
  · rcases hb with ⟨e, hnone⟩ | ⟨pre, h, post, t, v, hl, ht, hv, hu, e, _, _⟩
    · rw [e]
      simp only [ne_eq, not_true_eq_false, if_false, Bool.false_eq_true, false_iff]
      rintro ⟨h, hh, hu⟩
      exact hnone h hh hu
    · rw [e]
      simp only [ne_eq, hu, not_false_eq_true, if_true, true_iff]
      exact ⟨h, by rw [hl]; simp, t, v, ht, hv, hu⟩
  · split
    · intro h; simp at h
    · intro _; rfl
  · split <;> rfl

/-- C9 at the two inputs named by the specification, with the unknown rank 0 and the sample
ranking: the empty list and the list holding one candidate without type tag both report
failure and leave the output cells as they were. -/
theorem lr_best_checksum_success_iff_witness :
    (∀ t, (0 : Int) ≤ sampleChecksumType t) ∧
    lr_best_checksum 0 sampleChecksumType ⟨[], 7, some "old".toList⟩
      = (false, ⟨[], 7, some "old".toList⟩) ∧
    lr_best_checksum 0 sampleChecksumType ⟨[⟨none, some "x".toList⟩], 7, some "old".toList⟩
      = (false, ⟨[⟨none, some "x".toList⟩], 7, some "old".toList⟩) ∧
    (((lr_best_checksum 0 sampleChecksumType
          ⟨[⟨none, some "x".toList⟩], 7, some "old".toList⟩).1 = true ↔
        ∃ h ∈ (ChecksumMem.mk [⟨none, some "x".toList⟩] 7 (some "old".toList)).list,
          Usable 0 sampleChecksumType h) ∧
      ((lr_best_checksum 0 sampleChecksumType
          ⟨[⟨none, some "x".toList⟩], 7, some "old".toList⟩).1 = false →
        (lr_best_checksum 0 sampleChecksumType
          ⟨[⟨none, some "x".toList⟩], 7, some "old".toList⟩).2
          = ⟨[⟨none, some "x".toList⟩], 7, some "old".toList⟩) ∧
      (lr_best_checksum 0 sampleChecksumType
          ⟨[⟨none, some "x".toList⟩], 7, some "old".toList⟩).2.list
        = (ChecksumMem.mk [⟨none, some "x".toList⟩] 7 (some "old".toList)).list) :=
  ⟨sampleChecksumType_nonneg, by decide, by decide,
    lr_best_checksum_success_iff 0 sampleChecksumType sampleChecksumType_nonneg
      ⟨[⟨none, some "x".toList⟩], 7, some "old".toList⟩⟩

/-- C10: with the unknown rank the least rank, whenever `lr_best_checksum` succeeds the type it
stores is the rank of a candidate `h` with type tag, value and known tag that no such candidate
of the list exceeds, and the value it stores is the value of `h`, the earliest candidate with
both fields that has this rank. -/
theorem lr_best_checksum_best (unk : Int) (ct : List Char → Int)
    (hmin : ∀ t, unk ≤ ct t) (mem : ChecksumMem)
    (hs : (lr_best_checksum unk ct mem).1 = true) :
    ∃ pre h post t v, mem.list = pre ++ h :: post ∧ h.type = some t ∧ h.value = some v ∧
      ct t ≠ unk ∧
      (lr_best_checksum unk ct mem).2.type = ct t ∧
      (lr_best_checksum unk ct mem).2.value = some v ∧
      (∀ g ∈ mem.list, ∀ t' v', g.type = some t' → g.value = some v' →
        ct t' ≠ unk → ct t' ≤ ct t) ∧
      (∀ g ∈ pre, ∀ t' v', g.type = some t' → g.value = some v' → ct t' ≠ ct t) := by
  have hb := bestOf_foldl unk ct hmin mem.list
  rw [lr_best_checksum_eq] at hs ⊢
  rcases hb with ⟨e, _⟩ | ⟨pre, h, post, t, v, hl, ht, hv, hu, e, hmax, hearly⟩
  · rw [e] at hs
    simp at hs
  · refine ⟨pre, h, post, t, v, hl, ht, hv, hu, ?_, ?_, hmax, hearly⟩
    · rw [e]; simp [hu]
    · rw [e]; simp [hu]

/-- C10 at the list [md5:a, sha256:b, bogus:c] of the specification, with the unknown rank 0 and
the sample ranking: the call succeeds and stores the rank of sha256 and the value "b". -/
theorem lr_best_checksum_best_witness :
    (∀ t, (0 : Int) ≤ sampleChecksumType t) ∧
    lr_best_checksum 0 sampleChecksumType
        ⟨[⟨some "md5".toList, some "a".toList⟩, ⟨some "sha256".toList, some "b".toList⟩,
          ⟨some "bogus".toList, some "c".toList⟩], 0, none⟩
      = (true, ⟨[⟨some "md5".toList, some "a".toList⟩, ⟨some "sha256".toList, some "b".toList⟩,
          ⟨some "bogus".toList, some "c".toList⟩], sampleChecksumType "sha256".toList,
          some "b".toList⟩) ∧
    ∃ pre h post t v,
      (ChecksumMem.mk [⟨some "md5".toList, some "a".toList⟩,
          ⟨some "sha256".toList, some "b".toList⟩,
          ⟨some "bogus".toList, some "c".toList⟩] 0 none).list = pre ++ h :: post ∧
      h.type = some t ∧ h.value = some v ∧ sampleChecksumType t ≠ 0 ∧
      (lr_best_checksum 0 sampleChecksumType
        ⟨[⟨some "md5".toList, some "a".toList⟩, ⟨some "sha256".toList, some "b".toList⟩,
          ⟨some "bogus".toList, some "c".toList⟩], 0, none⟩).2.type = sampleChecksumType t ∧
      (lr_best_checksum 0 sampleChecksumType
        ⟨[⟨some "md5".toList, some "a".toList⟩, ⟨some "sha256".toList, some "b".toList⟩,
          ⟨some "bogus".toList, some "c".toList⟩], 0, none⟩).2.value = some v ∧
      (∀ g ∈ (ChecksumMem.mk [⟨some "md5".toList, some "a".toList⟩,
          ⟨some "sha256".toList, some "b".toList⟩,
          ⟨some "bogus".toList, some "c".toList⟩] 0 none).list, ∀ t' v',
        g.type = some t' → g.value = some v' →
        sampleChecksumType t' ≠ 0 → sampleChecksumType t' ≤ sampleChecksumType t) ∧
      (∀ g ∈ pre, ∀ t' v', g.type = some t' → g.value = some v' →
        sampleChecksumType t' ≠ sampleChecksumType t) :=
  ⟨sampleChecksumType_nonneg, by decide,
    lr_best_checksum_best 0 sampleChecksumType sampleChecksumType_nonneg _ (by decide)⟩

/-! ## The branches of `lr_prepend_url_protocol` -/

theorem lr_prepend_url_protocol_of_scheme (rp : List Char → Option (List Char))
    (path : List Char) (h : "://".toList <:+: path) :
    lr_prepend_url_protocol rp (some path) = some path := by
  have h1 : (strstr path "://".toList).isSome = true := (strstr_isSome_iff _ _).mpr h
  unfold lr_prepend_url_protocol
  simp only [h1, if_true]

theorem lr_prepend_url_protocol_of_file (rp : List Char → Option (List Char))
    (path : List Char) (h : "file:/".toList <+: path) :
    lr_prepend_url_protocol rp (some path) = some path := by
  have h2 : g_str_has_prefix path "file:/".toList = true := (g_str_has_prefix_iff _ _).mpr h
  unfold lr_prepend_url_protocol
  simp only [h2, if_true]
  split <;> rfl

theorem lr_prepend_url_protocol_of_abs (rp : List Char → Option (List Char))
    (path : List Char) (h1 : ¬ "://".toList <:+: path) (h2 : ¬ "file:/".toList <+: path)
    (h3 : path.head? = some '/') :
    lr_prepend_url_protocol rp (some path) = some ("file://".toList ++ path) := by
  have e1 : (strstr path "://".toList).isSome = false := by
    rw [← Bool.not_eq_true, strstr_isSome_iff]; exact h1
  have e2 : g_str_has_prefix path "file:/".toList = false := by
    rw [← Bool.not_eq_true, g_str_has_prefix_iff]; exact h2
  unfold lr_prepend_url_protocol
  simp only [e1, e2, h3, Bool.false_eq_true, if_false, if_true]

theorem lr_prepend_url_protocol_of_rel (rp : List Char → Option (List Char))
    (path : List Char) (h1 : ¬ "://".toList <:+: path) (h2 : ¬ "file:/".toList <+: path)
    (h3 : path.head? ≠ some '/') :
    lr_prepend_url_protocol rp (some path) = (rp path).map (fun r => "file://".toList ++ r) := by
  have e1 : (strstr path "://".toList).isSome = false := by
    rw [← Bool.not_eq_true, strstr_isSome_iff]; exact h1
  have e2 : g_str_has_prefix path "file:/".toList = false := by
    rw [← Bool.not_eq_true, g_str_has_prefix_iff]; exact h2
  unfold lr_prepend_url_protocol
  simp only [e1, e2, h3, Bool.false_eq_true, if_false]
  cases rp path <;> rfl

theorem file_abs_has_no_file_start (path : List Char) (h3 : path.head? = some '/') :
    ¬ "file:/".toList <+: path := by
  cases path with
  | nil => simp at h3
  | cons c t =>
    simp only [List.head?_cons, Option.some.injEq] at h3
    subst h3
    intro h
    have := (List.cons_prefix_cons.mp h).1
    exact absurd this (by decide)

theorem scheme_in_file_url (r : List Char) : "://".toList <:+: "file://".toList ++ r :=
  ⟨"file".toList, r, by simp⟩

theorem lr_is_local_path_some_iff (s : List Char) :
    lr_is_local_path (some s) = true ↔
      s ≠ [] ∧ (¬ "://".toList <:+: s ∨ "file://".toList <+: s) := by
  unfold lr_is_local_path
  by_cases hs : s = []
  · simp [hs]
  · simp only [hs, if_false, ne_eq, not_false_eq_true, true_and]
    simp only [strstr_isSome_iff, g_str_has_prefix_iff]
    by_cases h1 : "://".toList <:+: s <;> by_cases h2 : "file://".toList <+: s <;> simp [h1, h2]

theorem lr_is_local_path_file_url (r : List Char) :
    lr_is_local_path (some ("file://".toList ++ r)) = true := by
  rw [lr_is_local_path_some_iff]
  refine ⟨by simp, Or.inr (List.prefix_append _ _)⟩

/-- The four ways `lr_prepend_url_protocol` produces a non-NULL result. -/
theorem lr_prepend_url_protocol_cases (rp : List Char → Option (List Char))
    (path u : List Char) (h : lr_prepend_url_protocol rp (some path) = some u) :
    (u = path ∧ ("://".toList <:+: path ∨ "file:/".toList <+: path)) ∨
    (¬ "://".toList <:+: path ∧ ¬ "file:/".toList <+: path ∧
      ((path.head? = some '/' ∧ u = "file://".toList ++ path) ∨
       (path.head? ≠ some '/' ∧ ∃ r, rp path = some r ∧ u = "file://".toList ++ r))) := by
  by_cases h1 : "://".toList <:+: path
  · rw [lr_prepend_url_protocol_of_scheme rp path h1] at h
    simp only [Option.some.injEq] at h
    exact Or.inl ⟨h.symm, Or.inl h1⟩
  · by_cases h2 : "file:/".toList <+: path
    · rw [lr_prepend_url_protocol_of_file rp path h2] at h
      simp only [Option.some.injEq] at h
      exact Or.inl ⟨h.symm, Or.inr h2⟩
    · right
      refine ⟨h1, h2, ?_⟩
      by_cases h3 : path.head? = some '/'
      · rw [lr_prepend_url_protocol_of_abs rp path h1 h2 h3] at h
        simp only [Option.some.injEq] at h
        exact Or.inl ⟨h3, h.symm⟩
      · rw [lr_prepend_url_protocol_of_rel rp path h1 h2 h3] at h
        cases hr : rp path with
        | none => rw [hr] at h; simp at h
        | some r =>
          rw [hr] at h
          simp only [Option.map_some', Option.some.injEq] at h
          exact Or.inr ⟨h3, r, rfl, h.symm⟩

/-! ## Theorems about `lr_prepend_url_protocol` -/

/-- C11: on the inputs it decides without `realpath`, whatever `realpath` would answer,
`lr_prepend_url_protocol` gives NULL for NULL, returns unchanged every path that contains
"://" and every path without "://" that begins with "file:/", and returns "file://" followed
by the path as given for every path without "://" that begins with '/'; "/a/../b" gives
"file:///a/../b". -/
theorem lr_prepend_url_protocol_no_filesystem (realpath : List Char → Option (List Char))
    (path : List Char) :
    lr_prepend_url_protocol realpath none = none ∧
    ("://".toList <:+: path → lr_prepend_url_protocol realpath (some path) = some path) ∧
    (¬ "://".toList <:+: path → "file:/".toList <+: path →
      lr_prepend_url_protocol realpath (some path) = some path) ∧
    (¬ "://".toList <:+: path → path.head? = some '/' →
      lr_prepend_url_protocol realpath (some path) = some ("file://".toList ++ path)) ∧
    lr_prepend_url_protocol realpath (some "/a/../b".toList) = some "file:///a/../b".toList := by
  refine ⟨rfl, lr_prepend_url_protocol_of_scheme realpath path,
    fun _ h2 => lr_prepend_url_protocol_of_file realpath path h2,
    fun h1 h3 => lr_prepend_url_protocol_of_abs realpath path h1
      (file_abs_has_no_file_start path h3) h3, ?_⟩
  exact lr_prepend_url_protocol_of_abs realpath "/a/../b".toList (by decide) (by decide)
    (by decide)

/-- C12: for a path without "://" that begins neither with "file:/" nor with '/',
`lr_prepend_url_protocol` returns NULL exactly when `realpath` fails and otherwise "file://"
followed by the canonical path, so dropping the seven characters of "file://" from its result
gives what `realpath` gives; and a non-NULL input yields NULL only if it is such a path and
`realpath` fails on it. -/
theorem lr_prepend_url_protocol_relative (realpath : List Char → Option (List Char))
    (path : List Char) (h1 : ¬ "://".toList <:+: path) (h2 : ¬ "file:/".toList <+: path)
    (h3 : path.head? ≠ some '/') :
    (lr_prepend_url_protocol realpath (some path) = none ↔ realpath path = none) ∧
    (∀ r, realpath path = some r →
      lr_prepend_url_protocol realpath (some path) = some ("file://".toList ++ r)) ∧
    (lr_prepend_url_protocol realpath (some path)).map (List.drop "file://".toList.length)
      = realpath path ∧
    (∀ p, lr_prepend_url_protocol realpath (some p) = none →
      ¬ "://".toList <:+: p ∧ ¬ "file:/".toList <+: p ∧ p.head? ≠ some '/' ∧
        realpath p = none) := by
  have e := lr_prepend_url_protocol_of_rel realpath path h1 h2 h3
  refine ⟨?_, ?_, ?_, ?_⟩
  · rw [e]; cases realpath path <;> simp
  · intro r hr; rw [e, hr]; rfl
  · rw [e]
    cases realpath path with
    | none => rfl
    | some r =>
      simp only [Option.map_some', Option.some.injEq]
      exact List.drop_left' rfl
  · intro p hp
    by_cases g1 : "://".toList <:+: p
    · rw [lr_prepend_url_protocol_of_scheme realpath p g1] at hp; simp at hp
    · by_cases g2 : "file:/".toList <+: p
      · rw [lr_prepend_url_protocol_of_file realpath p g2] at hp; simp at hp
      · by_cases g3 : p.head? = some '/'
        · rw [lr_prepend_url_protocol_of_abs realpath p g1 g2 g3] at hp; simp at hp
        · rw [lr_prepend_url_protocol_of_rel realpath p g1 g2 g3] at hp
          refine ⟨g1, g2, g3, ?_⟩
          cases hr : realpath p with
          | none => rfl
          | some r => rw [hr] at hp; simp at hp

/-- C12 at the relative path "repo" with the sample `realpath`, which resolves it to
"/srv/repo": the result is "file:///srv/repo". -/
theorem lr_prepend_url_protocol_relative_witness :
    lr_prepend_url_protocol sampleRealpath (some "repo".toList) = some "file:///srv/repo".toList ∧
    lr_prepend_url_protocol sampleRealpath (some "nowhere".toList) = none ∧
    ((lr_prepend_url_protocol sampleRealpath (some "repo".toList) = none ↔
        sampleRealpath "repo".toList = none) ∧
      (∀ r, sampleRealpath "repo".toList = some r →
        lr_prepend_url_protocol sampleRealpath (some "repo".toList)
          = some ("file://".toList ++ r)) ∧
      (lr_prepend_url_protocol sampleRealpath (some "repo".toList)).map
          (List.drop "file://".toList.length)
        = sampleRealpath "repo".toList ∧
      (∀ p, lr_prepend_url_protocol sampleRealpath (some p) = none →
        ¬ "://".toList <:+: p ∧ ¬ "file:/".toList <+: p ∧ p.head? ≠ some '/' ∧
          sampleRealpath p = none)) :=
  ⟨by decide, by decide,
    lr_prepend_url_protocol_relative sampleRealpath "repo".toList (by decide) (by decide)
      (by decide)⟩

/-- C17: whatever `realpath` answers, a non-NULL result `u` of `lr_prepend_url_protocol`
contains "://" or begins with "file:/", and applying the function to `u` returns `u` unchanged
for every behaviour `realpath'` of the filesystem at the second call. -/
theorem lr_prepend_url_protocol_idempotent (realpath realpath' : List Char → Option (List Char))
    (path : Option (List Char)) (u : List Char)
    (h : lr_prepend_url_protocol realpath path = some u) :
    lr_prepend_url_protocol realpath' (some u) = some u ∧
      ("://".toList <:+: u ∨ "file:/".toList <+: u) := by
  cases path with
  | none => simp [lr_prepend_url_protocol] at h
  | some p =>
    have key : "://".toList <:+: u ∨ "file:/".toList <+: u := by
      rcases lr_prepend_url_protocol_cases realpath p u h with
        ⟨e, hp⟩ | ⟨_, _, ⟨_, e⟩ | ⟨_, r, _, e⟩⟩
      · rw [e]; exact hp
      · rw [e]; exact Or.inl (scheme_in_file_url p)
      · rw [e]; exact Or.inl (scheme_in_file_url r)
    refine ⟨?_, key⟩
    rcases key with k | k
    · exact lr_prepend_url_protocol_of_scheme realpath' u k
    · exact lr_prepend_url_protocol_of_file realpath' u k

/-- C17 at the relative path "repo": the sample `realpath` makes it "file:///srv/repo", and a
second call on that result, with a `realpath` that resolves nothing, returns it unchanged. -/
theorem lr_prepend_url_protocol_idempotent_witness :
    lr_prepend_url_protocol sampleRealpath (some "repo".toList)
      = some "file:///srv/repo".toList ∧
    lr_prepend_url_protocol noRealpath (some "file:///srv/repo".toList)
      = some "file:///srv/repo".toList ∧
    ("://".toList <:+: "file:///srv/repo".toList ∨ "file:/".toList <+: "file:///srv/repo".toList) :=
  ⟨by decide,
    lr_prepend_url_protocol_idempotent sampleRealpath noRealpath (some "repo".toList)
      "file:///srv/repo".toList (by decide)⟩

/-- C19: for a non-empty path on which `lr_prepend_url_protocol` returns a non-NULL `u`,
whatever `realpath` answers, `lr_is_local_path` gives the same answer for `u` as for the path;
and a path without "://" (an absolute or relative filesystem path) is local before and after. -/
theorem lr_prepend_url_protocol_keeps_local (realpath : List Char → Option (List Char))
    (path u : List Char) (hne : path ≠ [])
    (h : lr_prepend_url_protocol realpath (some path) = some u) :
    lr_is_local_path (some u) = lr_is_local_path (some path) ∧
    (¬ "://".toList <:+: path →
      lr_is_local_path (some path) = true ∧ lr_is_local_path (some u) = true) := by
  have hloc : ¬ "://".toList <:+: path → lr_is_local_path (some path) = true := by
    intro h1
    rw [lr_is_local_path_some_iff]
    exact ⟨hne, Or.inl h1⟩
  rcases lr_prepend_url_protocol_cases realpath path u h with
    ⟨e, _⟩ | ⟨h1, _, ⟨_, e⟩ | ⟨_, r, _, e⟩⟩
  · subst e
    exact ⟨rfl, fun h1 => ⟨hloc h1, hloc h1⟩⟩
  · subst e
    have hu := lr_is_local_path_file_url path
    exact ⟨by rw [hu, hloc h1], fun _ => ⟨hloc h1, hu⟩⟩
  · subst e
    have hu := lr_is_local_path_file_url r
    exact ⟨by rw [hu, hloc h1], fun _ => ⟨hloc h1, hu⟩⟩

/-- C19 at the absolute path "/abs/path" (local, promoted to the local "file:///abs/path"). -/
theorem lr_prepend_url_protocol_keeps_local_witness :
    lr_prepend_url_protocol noRealpath (some "/abs/path".toList)
      = some "file:///abs/path".toList ∧
    lr_is_local_path (some "/abs/path".toList) = true ∧
    (lr_is_local_path (some "file:///abs/path".toList)
        = lr_is_local_path (some "/abs/path".toList) ∧
      (¬ "://".toList <:+: "/abs/path".toList →
        lr_is_local_path (some "/abs/path".toList) = true ∧
          lr_is_local_path (some "file:///abs/path".toList) = true)) :=
  ⟨by decide, by decide,
    lr_prepend_url_protocol_keeps_local noRealpath "/abs/path".toList
      "file:///abs/path".toList (by decide) (by decide)⟩

/-! ## The flag `is_first` along the main loop -/

theorem concatLoop_snoc (first : List Char) (pre : List (List Char)) (f : List Char) :
    concatLoop first (pre ++ [f]) = concatStep (concatLoop first pre) f := by
  unfold concatLoop
  rw [← List.cons_append, List.foldl_append]
  rfl

theorem concatStep_is_first_of_ne_nil (st : ConcatState) (cur : List Char) (hwf : st.WF)
    (hcur : cur ≠ []) : (concatStep st cur).is_first = false := by
  rcases concatStep_cases st cur hwf with ⟨h, _⟩ | ⟨_, _, e⟩ | ⟨_, e⟩
  · exact absurd h hcur
  · rw [e]
  · rw [e]

theorem concatStep_is_first_mono (st : ConcatState) (cur : List Char) (hwf : st.WF)
    (h : st.is_first = false) : (concatStep st cur).is_first = false := by
  rcases concatStep_cases st cur hwf with ⟨_, e⟩ | ⟨_, _, e⟩ | ⟨_, e⟩
  · rw [e]; exact h
  · rw [e]
  · rw [e]

theorem foldl_concatStep_is_first_mono (frags : List (List Char)) (st : ConcatState)
    (hinv : st.Inv) (h : st.is_first = false) : (frags.foldl concatStep st).is_first = false := by
  induction frags generalizing st with
  | nil => exact h
  | cons f t ih =>
    exact ih _ (concatStep_inv st f hinv) (concatStep_is_first_mono st f hinv.wf h)

theorem foldl_concatStep_is_first_cleared (frags : List (List Char)) (st : ConcatState)
    (hinv : st.Inv) (h : ∃ g ∈ frags, g ≠ []) : (frags.foldl concatStep st).is_first = false := by
  induction frags generalizing st with
  | nil => obtain ⟨g, hg, _⟩ := h; simp at hg
  | cons f t ih =>
    simp only [List.foldl_cons]
    by_cases hf : f = []
    · apply ih _ (concatStep_inv st f hinv)
      obtain ⟨g, hg, hne⟩ := h
      rcases List.mem_cons.mp hg with rfl | hg
      · exact absurd hf hne
      · exact ⟨g, hg, hne⟩
    · exact foldl_concatStep_is_first_mono t _ (concatStep_inv st f hinv)
        (concatStep_is_first_of_ne_nil st f hinv.wf hf)

theorem foldl_concatStep_all_empty (frags : List (List Char)) (st : ConcatState)
    (h : ∀ g ∈ frags, g = []) :
    (frags.foldl concatStep st).res = st.res ∧ (frags.foldl concatStep st).offset = st.offset ∧
      (frags.foldl concatStep st).is_first = st.is_first := by
  induction frags generalizing st with
  | nil => exact ⟨rfl, rfl, rfl⟩
  | cons f t ih =>
    have hf : f = [] := h f (List.mem_cons_self _ _)
    have ht : ∀ g ∈ t, g = [] := fun g hg => h g (List.mem_cons_of_mem _ hg)
    subst hf
    simp only [List.foldl_cons]
    rw [concatStep_nil]
    exact ih _ ht

theorem concatLoop_is_first_cleared (first : List Char) (pre : List (List Char))
    (h : ∃ g ∈ first :: pre, g ≠ []) : (concatLoop first pre).is_first = false :=
  foldl_concatStep_is_first_cleared _ _ ConcatState.init_inv h

theorem concatLoop_all_empty (first : List Char) (pre : List (List Char))
    (h : ∀ g ∈ first :: pre, g = []) :
    (concatLoop first pre).res = [] ∧ (concatLoop first pre).is_first = true := by
  obtain ⟨h1, _, h3⟩ := foldl_concatStep_all_empty (first :: pre) ConcatState.init h
  exact ⟨h1, h3⟩

/-- The bytes in the buffer after one more element, when `is_first` is already cleared. -/
theorem concatStep_res_cleared (st : ConcatState) (f : List Char) (hwf : st.WF)
    (hf : st.is_first = false) :
    (concatStep st f).res = st.res ++ (if HasContent f then '/' :: trimBoth f else []) := by
  rcases concatStep_cases st f hwf with ⟨h, e⟩ | ⟨_, hn, e⟩ | ⟨hc, e⟩
  · have hn : ¬ HasContent f := by
      subst h; rintro ⟨c, hc, _⟩; simp at hc
    rw [e, if_neg hn]; simp
  · rw [e, if_neg hn]; simp
  · rw [e, if_pos hc]; simp [hf, piece]

/-- The bytes in the buffer after one more element, when `is_first` is still set. -/
theorem concatStep_res_first (st : ConcatState) (f : List Char) (hinv : st.Inv)
    (hf : st.is_first = true) : (concatStep st f).res = trimTrailing f := by
  have hres := hinv.first_empty hf
  rcases concatStep_cases st f hinv.wf with ⟨h, e⟩ | ⟨_, hn, e⟩ | ⟨hc, e⟩
  · rw [e]; subst h; simp [hres, trimTrailing]
  · rw [e]
    have : trimTrailing f = [] := by
      by_contra hne
      exact hn ((trimTrailing_ne_nil_iff f).mp hne)
    simp [hres, this]
  · rw [e]; simp [hf, hres, piece]

theorem trimBoth_eq_nil_of_no_content (f : List Char) (h : ¬ HasContent f) : trimBoth f = [] := by
  by_contra hne
  have := (piece_ne_nil_iff false f).mp (by simpa [piece] using hne)
  exact h this

theorem foldl_concatStep_cleared (frags : List (List Char)) (st : ConcatState)
    (hinv : st.Inv) (hf : st.is_first = false) :
    (frags.foldl concatStep st).res =
      st.res ++ (frags.map (fun f => if HasContent f then '/' :: trimBoth f else [])).flatten := by
  induction frags generalizing st with
  | nil => simp
  | cons f t ih =>
    simp only [List.foldl_cons]
    rw [ih _ (concatStep_inv st f hinv) (concatStep_is_first_mono st f hinv.wf hf),
      concatStep_res_cleared st f hinv.wf hf]
    simp

theorem hasContent_ne_nil (f : List Char) (h : HasContent f) : f ≠ [] := by
  rintro rfl
  obtain ⟨c, hc, _⟩ := h
  simp at hc

/-- Closed form of `lr_pathconcat` for a non-empty first argument, when some fragment holds a
character other than the separator. -/
theorem lr_pathconcat_closed (first : List Char) (rest : List (List Char)) (hne : first ≠ [])
    (hc : ∃ g ∈ first :: rest, HasContent g) :
    lr_pathconcat (some first) rest = PathResult.str
      (trimTrailing first
        ++ (rest.map (fun f => if HasContent f then '/' :: trimBoth f else [])).flatten
        ++ (if (first :: rest).getLast? = some [] then ['/'] else [])) := by
  have hinv1 := concatStep_inv ConcatState.init first ConcatState.init_inv
  have hf1 : (concatStep ConcatState.init first).is_first = false :=
    concatStep_is_first_of_ne_nil _ _ ConcatState.init_inv.wf hne
  have hres : (concatLoop first rest).res = trimTrailing first
      ++ (rest.map (fun f => if HasContent f then '/' :: trimBoth f else [])).flatten := by
    unfold concatLoop
    simp only [List.foldl_cons]
    rw [foldl_concatStep_cleared rest _ hinv1 hf1,
      concatStep_res_first _ _ ConcatState.init_inv rfl]
  have hnn : (concatLoop first rest).res ≠ [] :=
    foldl_concatStep_res_of_content _ _ ConcatState.init_inv hc
  have hl : (first :: rest).getLast? = some ((first :: rest).getLast (by simp)) :=
    List.getLast?_eq_getLast _ _
  have hpwe : (concatLoop first rest).previous_was_empty
      = decide ((first :: rest).getLast (by simp) = []) := by
    unfold concatLoop
    exact foldl_concatStep_pwe _ _ ConcatState.init_inv _ hl
  rw [lr_pathconcat_eq]
  unfold finish
  rw [if_neg hnn, hpwe, hres, hl]
  by_cases hlast : (first :: rest).getLast (by simp) = []
  · simp [hlast]
  · simp [hlast]

/-! ## Further theorems about `lr_pathconcat` -/

/-- C13 (amended): a fragment after the first argument has its trailing run of separators
stripped, and its leading run too when some earlier fragment is non-empty: the bytes added to
the output are then an optional separator followed by the fragment stripped on both sides.  A
fragment preceded only by empty strings is handled as the first element and keeps its leading
run.  For a non-empty first argument (and some content) the result is the first fragment
without its trailing run, then for each later fragment with content one separator and the
fragment stripped on both sides, then one separator if the last fragment is empty. -/
theorem lr_pathconcat_strips_later_fragment (first : List Char) (pre : List (List Char))
    (f : List Char) (rest : List (List Char)) :
    ((∃ g ∈ first :: pre, g ≠ []) →
      ∃ sep, (sep = [] ∨ sep = ['/']) ∧
        (concatLoop first (pre ++ [f])).res = (concatLoop first pre).res ++ sep ++ trimBoth f) ∧
    ((∀ g ∈ first :: pre, g = []) →
      (concatLoop first (pre ++ [f])).res = trimTrailing f) ∧
    (first ≠ [] → (∃ g ∈ first :: rest, HasContent g) →
      lr_pathconcat (some first) rest = PathResult.str
        (trimTrailing first
          ++ (rest.map (fun f => if HasContent f then '/' :: trimBoth f else [])).flatten
          ++ (if (first :: rest).getLast? = some [] then ['/'] else []))) := by
  have hinv := concatLoop_inv first pre
  refine ⟨?_, ?_, lr_pathconcat_closed first rest⟩
  · intro h
    have hf := concatLoop_is_first_cleared first pre h
    rw [concatLoop_snoc, concatStep_res_cleared _ f hinv.wf hf]
    by_cases hc : HasContent f
    · exact ⟨['/'], Or.inr rfl, by simp [hc]⟩
    · exact ⟨[], Or.inl rfl, by simp [hc, trimBoth_eq_nil_of_no_content f hc]⟩
  · intro h
    rw [concatLoop_snoc]
    exact concatStep_res_first _ f hinv (concatLoop_all_empty first pre h).2

/-- C13 (as stated, refuted): with the empty string as first fragment and "/a" as second, the
leading separator of the second fragment is kept: the result is "/a", not "a". -/
theorem lr_pathconcat_strips_later_fragment_counterexample :
    lr_pathconcat (some "".toList) ["/a".toList] = PathResult.str "/a".toList ∧
    lr_pathconcat (some "".toList) ["/a".toList] ≠ PathResult.str "a".toList := by
  decide

/-- C14 (amended): a fragment with content is appended with exactly one separator before it
when some earlier fragment is non-empty, whether or not the output built so far is empty, and
with no separator before it when every earlier fragment is the empty string (the output built
so far is then empty). -/
theorem lr_pathconcat_separator_before (first : List Char) (pre : List (List Char))
    (f : List Char) (hc : HasContent f) :
    ((∃ g ∈ first :: pre, g ≠ []) →
      (concatLoop first (pre ++ [f])).res = (concatLoop first pre).res ++ '/' :: trimBoth f ∧
        (concatLoop first pre).res.getLast? ≠ some '/' ∧ (trimBoth f).head? ≠ some '/') ∧
    ((∀ g ∈ first :: pre, g = []) →
      (concatLoop first pre).res = [] ∧
        (concatLoop first (pre ++ [f])).res = trimTrailing f) := by
  have hinv := concatLoop_inv first pre
  constructor
  · intro h
    have hf := concatLoop_is_first_cleared first pre h
    rw [concatLoop_snoc, concatStep_res_cleared _ f hinv.wf hf, if_pos hc]
    exact ⟨rfl, hinv.last_not_sep, trimBoth_head f⟩
  · intro h
    have he := concatLoop_all_empty first pre h
    rw [concatLoop_snoc]
    exact ⟨he.1, concatStep_res_first _ f hinv he.2⟩

/-- C14 at the first fragment "///" followed by "a": the output built from "///" is empty, and
"a" is still appended with a separator before it. -/
theorem lr_pathconcat_separator_before_witness :
    HasContent "a".toList ∧
    (concatLoop "///".toList []).res = [] ∧
    (concatLoop "///".toList ([] ++ ["a".toList])).res = "/a".toList ∧
    (((∃ g ∈ "///".toList :: [], g ≠ []) →
      (concatLoop "///".toList ([] ++ ["a".toList])).res
          = (concatLoop "///".toList []).res ++ '/' :: trimBoth "a".toList ∧
        (concatLoop "///".toList []).res.getLast? ≠ some '/' ∧
        (trimBoth "a".toList).head? ≠ some '/') ∧
    ((∀ g ∈ "///".toList :: [], g = []) →
      (concatLoop "///".toList []).res = [] ∧
        (concatLoop "///".toList ([] ++ ["a".toList])).res = trimTrailing "a".toList)) :=
  ⟨by decide, by decide, by decide,
    lr_pathconcat_separator_before "///".toList [] "a".toList (by decide)⟩

/-- C14 (as stated, refuted): after the separator-only first fragment "///" the output built
so far is empty, yet "a" is appended with a separator: the result is "/a", not "a". -/
theorem lr_pathconcat_separator_before_counterexample :
    (concatLoop "///".toList []).res = [] ∧
    lr_pathconcat (some "///".toList) ["a".toList] = PathResult.str "/a".toList ∧
    lr_pathconcat (some "///".toList) ["a".toList] ≠ PathResult.str "a".toList := by
  decide

/-- C15: if no fragment holds a separator immediately followed by another separator, neither
does the string `lr_pathconcat` returns. -/
theorem lr_pathconcat_no_double_sep (first : List Char) (rest : List (List Char))
    (h : ∀ f ∈ first :: rest, ¬ HasDoubleSep f) :
    ∃ s, lr_pathconcat (some first) rest = PathResult.str s ∧ ¬ HasDoubleSep s := by
  refine ⟨_, lr_pathconcat_eq first rest, ?_⟩
  intro hd
  obtain ⟨f, hf, hdf⟩ := finish_double first rest hd
  exact h f hf hdf

/-- C15 at join("/", "a", "") = "/a/" (separator-only first fragment and trailing separator)
and at join("/", "") = "/" (the first fragment returned verbatim). -/
theorem lr_pathconcat_no_double_sep_witness :
    lr_pathconcat (some "/".toList) ["a".toList, "".toList] = PathResult.str "/a/".toList ∧
    lr_pathconcat (some "/".toList) ["".toList] = PathResult.str "/".toList ∧
    (∃ s, lr_pathconcat (some "/".toList) ["a".toList, "".toList] = PathResult.str s ∧
      ¬ HasDoubleSep s) ∧
    (∃ s, lr_pathconcat (some "/".toList) ["".toList] = PathResult.str s ∧
      ¬ HasDoubleSep s) :=
  ⟨by decide, by decide,
    lr_pathconcat_no_double_sep "/".toList ["a".toList, "".toList] (by decide),
    lr_pathconcat_no_double_sep "/".toList ["".toList] (by decide)⟩

/-- C16: for fragments `a`, `b`, `c` that each hold a character other than the separator,
joining `a` and `b` and then joining the result with `c` gives the same string as joining
`a`, `b` and `c` at once. -/
theorem lr_pathconcat_nested (a b c : List Char) (ha : HasContent a) (hb : HasContent b)
    (hc : HasContent c) :
    ∃ ab, lr_pathconcat (some a) [b] = PathResult.str ab ∧
      lr_pathconcat (some ab) [c] = lr_pathconcat (some a) [b, c] := by
  have hane := hasContent_ne_nil a ha
  have hbne := hasContent_ne_nil b hb
  have hcne := hasContent_ne_nil c hc
  have hpb : trimBoth b ≠ [] := by
    simpa [piece] using (piece_ne_nil_iff false b).mpr hb
  have hlast : (trimTrailing a ++ '/' :: trimBoth b).getLast? ≠ some '/' := by
    have e : trimTrailing a ++ '/' :: trimBoth b = (trimTrailing a ++ ['/']) ++ trimBoth b := by
      simp
    rw [e, List.getLast?_append_of_ne_nil _ hpb]
    simpa [piece] using piece_getLast false b
  have habne : trimTrailing a ++ '/' :: trimBoth b ≠ [] := by simp
  have e1 := lr_pathconcat_closed a [b] hane ⟨a, List.mem_cons_self _ _, ha⟩
  have e2 := lr_pathconcat_closed a [b, c] hane ⟨a, List.mem_cons_self _ _, ha⟩
  have e3 := lr_pathconcat_closed (trimTrailing a ++ '/' :: trimBoth b) [c] habne
    ⟨c, by simp, hc⟩
  refine ⟨trimTrailing a ++ '/' :: trimBoth b, ?_, ?_⟩
  · rw [e1]
    simp [hb, hbne]
  · rw [e2, e3, trimTrailing_eq_self _ hlast]
    simp [hb, hc, hcne]

/-- C16 at the fragments "/a/", "/b/", "/c/": both ways of joining give "/a/b/c". -/
theorem lr_pathconcat_nested_witness :
    lr_pathconcat (some "/a/".toList) ["/b/".toList, "/c/".toList]
      = PathResult.str "/a/b/c".toList ∧
    ∃ ab, lr_pathconcat (some "/a/".toList) ["/b/".toList] = PathResult.str ab ∧
      lr_pathconcat (some ab) ["/c/".toList]
        = lr_pathconcat (some "/a/".toList) ["/b/".toList, "/c/".toList] :=
  ⟨by decide,
    lr_pathconcat_nested "/a/".toList "/b/".toList "/c/".toList (by decide) (by decide)
      (by decide)⟩

/-! ## The rank kept by the selection loop -/

theorem bestStep_fst (unk : Int) (ct : List Char → Int) (tmp : Int × Option (List Char))
    (h : LrMetalinkHash) :
    (bestStep unk ct tmp h).1 = (bestStep unk ct (tmp.1, none) h).1 := by
  unfold bestStep
  cases h.type with
  | none => rfl
  | some t =>
    cases h.value with
    | none => rfl
    | some v =>
      simp only
      split <;> rfl

theorem foldl_bestStep_fst (unk : Int) (ct : List Char → Int) (l : List LrMetalinkHash)
    (tmp : Int × Option (List Char)) :
    (l.foldl (bestStep unk ct) tmp).1
      = l.foldl (fun m h => (bestStep unk ct (m, none) h).1) tmp.1 := by
  induction l generalizing tmp with
  | nil => rfl
  | cons h t ih =>
    simp only [List.foldl_cons]
    rw [ih, bestStep_fst]

theorem bestStep_fst_unusable (unk : Int) (ct : List Char → Int) (h : LrMetalinkHash)
    (hn : ¬ Usable unk ct h) (m : Int) : (bestStep unk ct (m, none) h).1 = m := by
  rw [bestStep_of_not_usable unk ct _ h hn]

theorem bestStep_fst_usable (unk : Int) (ct : List Char → Int) (h : LrMetalinkHash)
    (hu : Usable unk ct h) :
    ∃ q, ∀ m, (bestStep unk ct (m, none) h).1 = if q > m then q else m := by
  obtain ⟨t, v, ht, hv, hne⟩ := hu
  refine ⟨ct t, fun m => ?_⟩
  rw [bestStep_some unk ct _ h t v ht hv]
  simp only [ne_eq, hne, not_false_eq_true, true_and]
  split <;> rfl

theorem bestStep_fst_comm (unk : Int) (ct : List Char → Int) (x y : LrMetalinkHash) (z : Int) :
    (bestStep unk ct ((bestStep unk ct (z, none) x).1, none) y).1
      = (bestStep unk ct ((bestStep unk ct (z, none) y).1, none) x).1 := by
  by_cases hx : Usable unk ct x
  · obtain ⟨q, hq⟩ := bestStep_fst_usable unk ct x hx
    by_cases hy : Usable unk ct y
    · obtain ⟨r, hr⟩ := bestStep_fst_usable unk ct y hy
      simp only [hq, hr]
      split_ifs <;> omega
    · simp only [bestStep_fst_unusable unk ct y hy]
  · simp only [bestStep_fst_unusable unk ct x hx]

theorem foldl_bestStep_fst_perm (unk : Int) (ct : List Char → Int)
    (l l' : List LrMetalinkHash) (hp : l.Perm l') (tmp : Int × Option (List Char)) :
    (l'.foldl (bestStep unk ct) tmp).1 = (l.foldl (bestStep unk ct) tmp).1 := by
  rw [foldl_bestStep_fst, foldl_bestStep_fst]
  exact (List.Perm.foldl_eq' hp (fun x _ y _ z => bestStep_fst_comm unk ct x y z) tmp.1).symm

/-! ## A theorem about the order of the candidates -/

/-- C20: for every candidate list and every permutation of it, `lr_best_checksum` returns the
same success flag and leaves the same checksum type in the caller's cell. -/
theorem lr_best_checksum_perm (unk : Int) (ct : List Char → Int) (mem : ChecksumMem)
    (l' : List LrMetalinkHash) (hp : mem.list.Perm l') :
    (lr_best_checksum unk ct { mem with list := l' }).1 = (lr_best_checksum unk ct mem).1 ∧
    (lr_best_checksum unk ct { mem with list := l' }).2.type
      = (lr_best_checksum unk ct mem).2.type := by
  have e := foldl_bestStep_fst_perm unk ct mem.list l' hp (unk, none)
  rw [lr_best_checksum_eq, lr_best_checksum_eq]
  simp only [e]
  split <;> exact ⟨rfl, rfl⟩

/-- C20 at the list [md5:a, sha256:b, sha256:c] and its reversal, with the unknown rank 0 and
the sample ranking: both orders succeed with the rank of sha256, and only the value differs
("b" for the first order, "c" for the second). -/
theorem lr_best_checksum_perm_witness :
    (lr_best_checksum 0 sampleChecksumType
        ⟨[⟨some "md5".toList, some "a".toList⟩, ⟨some "sha256".toList, some "b".toList⟩,
          ⟨some "sha256".toList, some "c".toList⟩], 0, none⟩).2.value = some "b".toList ∧
    (lr_best_checksum 0 sampleChecksumType
        ⟨[⟨some "sha256".toList, some "c".toList⟩, ⟨some "sha256".toList, some "b".toList⟩,
          ⟨some "md5".toList, some "a".toList⟩], 0, none⟩).2.value = some "c".toList ∧
    ((lr_best_checksum 0 sampleChecksumType
        { (ChecksumMem.mk [⟨some "md5".toList, some "a".toList⟩,
            ⟨some "sha256".toList, some "b".toList⟩,
            ⟨some "sha256".toList, some "c".toList⟩] 0 none) with
          list := [⟨some "sha256".toList, some "c".toList⟩,
            ⟨some "sha256".toList, some "b".toList⟩,
            ⟨some "md5".toList, some "a".toList⟩] }).1
      = (lr_best_checksum 0 sampleChecksumType
          (ChecksumMem.mk [⟨some "md5".toList, some "a".toList⟩,
            ⟨some "sha256".toList, some "b".toList⟩,
            ⟨some "sha256".toList, some "c".toList⟩] 0 none)).1 ∧
    (lr_best_checksum 0 sampleChecksumType
        { (ChecksumMem.mk [⟨some "md5".toList, some "a".toList⟩,
            ⟨some "sha256".toList, some "b".toList⟩,
            ⟨some "sha256".toList, some "c".toList⟩] 0 none) with
          list := [⟨some "sha256".toList, some "c".toList⟩,
            ⟨some "sha256".toList, some "b".toList⟩,
            ⟨some "md5".toList, some "a".toList⟩] }).2.type
      = (lr_best_checksum 0 sampleChecksumType
          (ChecksumMem.mk [⟨some "md5".toList, some "a".toList⟩,
            ⟨some "sha256".toList, some "b".toList⟩,
            ⟨some "sha256".toList, some "c".toList⟩] 0 none)).2.type) :=
  ⟨by decide, by decide,
    lr_best_checksum_perm 0 sampleChecksumType
      (ChecksumMem.mk [⟨some "md5".toList, some "a".toList⟩,
        ⟨some "sha256".toList, some "b".toList⟩,
        ⟨some "sha256".toList, some "c".toList⟩] 0 none)
      [⟨some "sha256".toList, some "c".toList⟩, ⟨some "sha256".toList, some "b".toList⟩,
        ⟨some "md5".toList, some "a".toList⟩]
      (List.reverse_perm _).symm⟩

/-! ## Scanning the result of a scan again -/

theorem lr_url_without_path_of_file (url : List Char) (h : "file:/".toList <+: url) :
    lr_url_without_path (some url) = some "file://".toList := by
  have h1 : g_str_has_prefix url "file:/".toList = true := (g_str_has_prefix_iff _ _).mpr h
  unfold lr_url_without_path
  simp only [h1, if_true]
  split <;> rfl

theorem drop_take_initial (url : List Char) (n j : Nat) :
    (url.take n).drop j <+: url.drop j := by
  rw [List.drop_take]
  exact List.take_prefix _ _

theorem occ_take (needle url : List Char) (k n : Nat) (h : needle <+: url.drop k)
    (hn : k + needle.length ≤ n) : needle <+: (url.take n).drop k := by
  rw [List.drop_take, List.prefix_take_iff]
  exact ⟨h, by omega⟩

theorem occ_of_take (needle url : List Char) (k n : Nat)
    (h : needle <+: (url.take n).drop k) : needle <+: url.drop k :=
  List.IsPrefix.trans h (drop_take_initial url n k)

/-- The scan start of a scanned prefix is not before the scan start of the url. -/
theorem scanStart_take_ge (url : List Char) (p n p' : Nat) (hp : ScanStart url p) (hpn : p ≤ n)
    (hp' : ScanStart (url.take n) p') : p ≤ p' := by
  rcases hp with ⟨k, ⟨hocc, hmin⟩, rfl⟩ | ⟨_, rfl⟩
  · rcases hp' with ⟨k', ⟨hocc', _⟩, rfl⟩ | ⟨hnone, _⟩
    · have hk : ¬ k' < k := fun hlt => hmin k' hlt (occ_of_take _ _ _ _ hocc')
      omega
    · exfalso
      apply hnone
      have h3 : "://".toList.length = 3 := by decide
      have := occ_take "://".toList url k n hocc (by omega)
      exact this.isInfix.trans (List.drop_suffix k _).isInfix
  · exact Nat.zero_le _

theorem lr_url_without_path_take (url : List Char) (p n : Nat)
    (hfile : ¬ "file:/".toList <+: url) (hp : ScanStart url p) (hpn : p ≤ n)
    (hn : n ≤ url.length) (hno : ∀ i, p ≤ i → i < n → url[i]? ≠ some '/') :
    lr_url_without_path (some (url.take n)) = some (url.take n) := by
  have hfile' : ¬ "file:/".toList <+: url.take n :=
    fun h => hfile (List.IsPrefix.trans h (List.take_prefix _ _))
  obtain ⟨p', n', hp', hr, hpn', hn', _, hat⟩ := lr_url_without_path_scan (url.take n) hfile'
  have hlen : (url.take n).length = n := by rw [List.length_take]; omega
  have hge := scanStart_take_ge url p n p' hp hpn hp'
  rw [hr]
  congr 1
  apply List.take_of_length_le
  rw [hlen] at hn' hat ⊢
  by_contra hlt
  have hlt' : n' < n := by omega
  have h1 := hat hlt'
  rw [List.getElem?_take_of_lt hlt'] at h1
  exact hno n' (by omega) hlt' h1

/-! ## A theorem about repeated host extraction -/

/-- C18: for every non-NULL url, `lr_url_without_path` returns a string `r`, and applied to `r`
it returns `r` again. -/
theorem lr_url_without_path_idempotent (url : List Char) :
    ∃ r, lr_url_without_path (some url) = some r ∧ lr_url_without_path (some r) = some r := by
  by_cases hfile : "file:/".toList <+: url
  · exact ⟨"file://".toList, lr_url_without_path_of_file url hfile, by decide⟩
  · obtain ⟨p, n, hp, hr, hpn, hn, hno, _⟩ := lr_url_without_path_scan url hfile
    exact ⟨url.take n, hr, lr_url_without_path_take url p n hfile hp hpn hn hno⟩

/-! ## The shape of the joined string -/

theorem exists_first_content (l : List (List Char)) (h : ∃ f ∈ l, HasContent f) :
    ∃ pre c post, l = pre ++ c :: post ∧ (∀ e ∈ pre, ¬ HasContent e) ∧ HasContent c := by
  induction l with
  | nil => obtain ⟨f, hf, _⟩ := h; simp at hf
  | cons x t ih =>
    by_cases hx : HasContent x
    · exact ⟨[], x, t, rfl, by simp, hx⟩
    · have ht : ∃ f ∈ t, HasContent f := by
        obtain ⟨f, hf, hc⟩ := h
        rcases List.mem_cons.mp hf with rfl | hf
        · exact absurd hc hx
        · exact ⟨f, hf, hc⟩
      obtain ⟨pre, c, post, e, hpre, hc⟩ := ih ht
      refine ⟨x :: pre, c, post, by rw [e]; rfl, ?_, hc⟩
      intro e he
      rcases List.mem_cons.mp he with rfl | he
      · exact hx
      · exact hpre e he

theorem flatten_map_content (post : List (List Char)) :
    (post.map (fun h => if HasContent h then '/' :: trimBoth h else [])).flatten
      = ((post.filter (fun h => decide (HasContent h))).map
          (fun h => '/' :: trimBoth h)).flatten := by
  induction post with
  | nil => rfl
  | cons h t ih =>
    by_cases hc : HasContent h
    · simp [hc, ih]
    · simp [hc, ih]

/-- The buffer after the loop has run over fragments without content, then a fragment `c` with
content, then the fragments `post`. -/
theorem concatLoop_res_shape (pre : List (List Char)) (c : List Char) (post : List (List Char))
    (hpre : ∀ e ∈ pre, ¬ HasContent e) (hc : HasContent c) :
    ((pre ++ c :: post).foldl concatStep ConcatState.init).res =
      (if ∀ e ∈ pre, e = [] then trimTrailing c else '/' :: trimBoth c)
        ++ ((post.filter (fun h => decide (HasContent h))).map
            (fun h => '/' :: trimBoth h)).flatten := by
  have hinv0 := foldl_concatStep_inv pre _ ConcatState.init_inv
  have hres0 : (pre.foldl concatStep ConcatState.init).res = [] :=
    foldl_concatStep_res_of_no_content pre _ ConcatState.init_inv.wf hpre
  have hinv1 := concatStep_inv _ c hinv0
  have hf1 : (concatStep (pre.foldl concatStep ConcatState.init) c).is_first = false :=
    concatStep_is_first_of_ne_nil _ _ hinv0.wf (hasContent_ne_nil c hc)
  rw [List.foldl_append, List.foldl_cons, foldl_concatStep_cleared post _ hinv1 hf1,
    flatten_map_content]
  congr 1
  by_cases hall : ∀ e ∈ pre, e = []
  · rw [if_pos hall]
    have hfst := (foldl_concatStep_all_empty pre ConcatState.init hall).2.2
    exact concatStep_res_first _ c hinv0 hfst
  · rw [if_neg hall]
    have hex : ∃ g ∈ pre, g ≠ [] := by
      by_contra hno
      apply hall
      intro e he
      by_contra hne
      exact hno ⟨e, he, hne⟩
    have hfst := foldl_concatStep_is_first_cleared pre _ ConcatState.init_inv hex
    rw [concatStep_res_cleared _ c hinv0.wf hfst, hres0, if_pos hc]
    rfl

theorem trimBoth_within (h : List Char) : trimBoth h <:+: h := by
  simpa [piece] using piece_within false h

theorem trimBoth_getLast (h : List Char) : (trimBoth h).getLast? ≠ some '/' := by
  simpa [piece] using piece_getLast false h

theorem trimBoth_ne_nil (h : List Char) (hc : HasContent h) : trimBoth h ≠ [] := by
  simpa [piece] using (piece_ne_nil_iff false h).mpr hc

theorem countDoubleSep_append (a b : List Char)
    (h : a.getLast? ≠ some '/' ∨ b.head? ≠ some '/') :
    countDoubleSep (a ++ b) = countDoubleSep a + countDoubleSep b := by
  induction a with
  | nil => simp [countDoubleSep]
  | cons x t ih =>
    cases t with
    | nil =>
      simp only [List.getLast?_singleton, ne_eq, Option.some.injEq] at h
      have hx : ¬ (x = '/' ∧ b.head? = some '/') := by
        rintro ⟨h1, h2⟩
        rcases h with h | h
        · exact h h1
        · exact h h2
      simp [countDoubleSep, hx]
    | cons y u =>
      have ih' := ih (by simpa [List.getLast?_cons_cons] using h)
      simp only [List.cons_append] at ih' ⊢
      simp only [countDoubleSep, List.head?_cons] at ih' ⊢
      omega

theorem countDoubleSep_sep_cons (q : List Char) (hq : q.head? ≠ some '/') :
    countDoubleSep ('/' :: q) = countDoubleSep q := by
  simp [countDoubleSep, hq]

theorem countDoubleSep_pos_iff (s : List Char) : 0 < countDoubleSep s ↔ HasDoubleSep s := by
  induction s with
  | nil => simp [countDoubleSep, not_hasDoubleSep_nil]
  | cons a t ih =>
    rw [hasDoubleSep_cons, ← ih]
    simp only [countDoubleSep]
    by_cases h : a = '/' ∧ t.head? = some '/'
    · simp [h]
    · simp only [h, if_false, Nat.zero_add, false_or]

/-- Appending pieces, each behind one separator, to a string that does not end in a separator
adds no doubled separator beyond those inside the pieces. -/
theorem countDoubleSep_pieces (qs : List (List Char)) (x : List Char)
    (hx : x.getLast? ≠ some '/')
    (hq : ∀ q ∈ qs, q ≠ [] ∧ q.head? ≠ some '/' ∧ q.getLast? ≠ some '/') :
    countDoubleSep (x ++ (qs.map (fun q => '/' :: q)).flatten)
        = countDoubleSep x + (qs.map countDoubleSep).sum ∧
      (x ++ (qs.map (fun q => '/' :: q)).flatten).getLast? ≠ some '/' := by
  induction qs generalizing x with
  | nil => simpa using hx
  | cons q t ih =>
    obtain ⟨hne, hhd, hlast⟩ := hq q (List.mem_cons_self _ _)
    have ht : ∀ r ∈ t, r ≠ [] ∧ r.head? ≠ some '/' ∧ r.getLast? ≠ some '/' :=
      fun r hr => hq r (List.mem_cons_of_mem _ hr)
    have e : x ++ ((q :: t).map (fun q => '/' :: q)).flatten
        = (x ++ '/' :: q) ++ (t.map (fun q => '/' :: q)).flatten := by simp
    have hx' : (x ++ '/' :: q).getLast? ≠ some '/' := by
      have e2 : x ++ '/' :: q = (x ++ ['/']) ++ q := by simp
      rw [e2, List.getLast?_append_of_ne_nil _ hne]
      exact hlast
    have hc : countDoubleSep (x ++ '/' :: q) = countDoubleSep x + countDoubleSep q := by
      rw [countDoubleSep_append x _ (Or.inl hx), countDoubleSep_sep_cons q hhd]
    obtain ⟨h1, h2⟩ := ih (x ++ '/' :: q) hx' ht
    rw [e]
    refine ⟨?_, h2⟩
    rw [h1, hc]
    simp only [List.map_cons, List.sum_cons]
    omega

/-! ## The doubled separators of the joined string -/

/-- C1 (amended): for every fragment sequence with a first fragment, `lr_pathconcat` returns a
string `s`, and `s` holds a separator immediately followed by another separator only if one of
the fragments already does.  When no fragment has content, `s` is the first fragment verbatim.
Otherwise `s` is made of pieces copied from the fragments and of inserted separators: a piece
`p` of the first fragment `c` with content (`c` without its trailing run, preceded by nothing,
when only empty strings come before it; `c` stripped on both sides, preceded by one separator,
otherwise), then for each later fragment with content one separator and the fragment stripped
on both sides, then one separator if the last fragment is the empty string.  No piece is empty
or ends in a separator and no piece behind an inserted separator begins with one, so the
inserted separators, the trailing one included, never stand next to another separator: the
doubled separators of `s` are exactly those inside the pieces. -/
theorem lr_pathconcat_double_sep_from_fragment (first : List Char) (rest : List (List Char)) :
    ∃ s, lr_pathconcat (some first) rest = PathResult.str s ∧
      (HasDoubleSep s → ∃ f ∈ first :: rest, HasDoubleSep f) ∧
      ((∀ f ∈ first :: rest, ¬ HasContent f) → s = first) ∧
      ((∃ f ∈ first :: rest, HasContent f) →
        ∃ pre c post lead p qs tail,
          first :: rest = pre ++ c :: post ∧ (∀ e ∈ pre, ¬ HasContent e) ∧ HasContent c ∧
          qs = (post.filter (fun h => decide (HasContent h))).map trimBoth ∧
          ((lead = [] ∧ p = trimTrailing c ∧ ∀ e ∈ pre, e = []) ∨
            (lead = ['/'] ∧ p = trimBoth c ∧ ∃ e ∈ pre, e ≠ [])) ∧
          ((tail = ['/'] ∧ (first :: rest).getLast? = some []) ∨
            (tail = [] ∧ (first :: rest).getLast? ≠ some [])) ∧
          s = lead ++ p ++ (qs.map (fun q => '/' :: q)).flatten ++ tail ∧
          p ≠ [] ∧ p.getLast? ≠ some '/' ∧ (lead = ['/'] → p.head? ≠ some '/') ∧ p <:+: c ∧
          (∀ q ∈ qs, q ≠ [] ∧ q.head? ≠ some '/' ∧ q.getLast? ≠ some '/' ∧
            ∃ h ∈ post, q <:+: h) ∧
          countDoubleSep s = countDoubleSep p + (qs.map countDoubleSep).sum) := by
  have hinv := concatLoop_inv first rest
  refine ⟨_, lr_pathconcat_eq first rest, finish_double first rest, ?_, ?_⟩
  · intro hno
    have hres : (concatLoop first rest).res = [] :=
      foldl_concatStep_res_of_no_content _ _ ConcatState.init_inv.wf hno
    unfold finish
    rw [if_pos hres]
  · intro hex
    obtain ⟨pre, c, post, hsplit, hpre, hc⟩ := exists_first_content (first :: rest) hex
    have hqs : ∀ q ∈ (post.filter (fun h => decide (HasContent h))).map trimBoth,
        q ≠ [] ∧ q.head? ≠ some '/' ∧ q.getLast? ≠ some '/' ∧ ∃ h ∈ post, q <:+: h := by
      intro q hq
      obtain ⟨h, hh, rfl⟩ := List.mem_map.mp hq
      have hmem := (List.mem_filter.mp hh).1
      have hcon : HasContent h := by simpa using (List.mem_filter.mp hh).2
      exact ⟨trimBoth_ne_nil h hcon, trimBoth_head h, trimBoth_getLast h, h, hmem,
        trimBoth_within h⟩
    have hqs' : ∀ q ∈ (post.filter (fun h => decide (HasContent h))).map trimBoth,
        q ≠ [] ∧ q.head? ≠ some '/' ∧ q.getLast? ≠ some '/' :=
      fun q hq => ⟨(hqs q hq).1, (hqs q hq).2.1, (hqs q hq).2.2.1⟩
    have hshape := concatLoop_res_shape pre c post hpre hc
    rw [← hsplit] at hshape
    have hres : (concatLoop first rest).res =
        (if ∀ e ∈ pre, e = [] then trimTrailing c else '/' :: trimBoth c)
          ++ (((post.filter (fun h => decide (HasContent h))).map trimBoth).map
              (fun q => '/' :: q)).flatten := by
      rw [List.map_map]
      exact hshape
    have hnn : (concatLoop first rest).res ≠ [] :=
      foldl_concatStep_res_of_content _ _ ConcatState.init_inv hex
    have hl : (first :: rest).getLast? = some ((first :: rest).getLast (by simp)) :=
      List.getLast?_eq_getLast _ _
    have hpwe : (concatLoop first rest).previous_was_empty
        = decide ((first :: rest).getLast (by simp) = []) := by
      unfold concatLoop
      exact foldl_concatStep_pwe _ _ ConcatState.init_inv _ hl
    -- the leading separator and the first piece
    have hlead : ∃ lead p,
        ((lead = [] ∧ p = trimTrailing c ∧ ∀ e ∈ pre, e = []) ∨
          (lead = ['/'] ∧ p = trimBoth c ∧ ∃ e ∈ pre, e ≠ [])) ∧
        (if ∀ e ∈ pre, e = [] then trimTrailing c else '/' :: trimBoth c) = lead ++ p ∧
        p ≠ [] ∧ p.getLast? ≠ some '/' ∧ (lead = ['/'] → p.head? ≠ some '/') ∧ p <:+: c ∧
        countDoubleSep (lead ++ p) = countDoubleSep p := by
      by_cases hall : ∀ e ∈ pre, e = []
      · refine ⟨[], trimTrailing c, Or.inl ⟨rfl, rfl, hall⟩, by rw [if_pos hall]; rfl,
          (trimTrailing_ne_nil_iff c).mpr hc, trimTrailing_getLast c, ?_,
          (trimTrailing_initial c).isInfix, rfl⟩
        intro h; simp at h
      · have hne : ∃ e ∈ pre, e ≠ [] := by
          by_contra hno
          apply hall
          intro e he
          by_contra hne
          exact hno ⟨e, he, hne⟩
        exact ⟨['/'], trimBoth c, Or.inr ⟨rfl, rfl, hne⟩, by rw [if_neg hall]; rfl,
          trimBoth_ne_nil c hc, trimBoth_getLast c, fun _ => trimBoth_head c,
          trimBoth_within c, countDoubleSep_sep_cons _ (trimBoth_head c)⟩
    obtain ⟨lead, p, hcase, hlp, hpne, hplast, hphead, hpin, hcount0⟩ := hlead
    have hxlast : (lead ++ p).getLast? ≠ some '/' := by
      rw [List.getLast?_append_of_ne_nil _ hpne]; exact hplast
    obtain ⟨hcount1, hlast1⟩ := countDoubleSep_pieces
      ((post.filter (fun h => decide (HasContent h))).map trimBoth) (lead ++ p) hxlast hqs'
    rw [hlp] at hres
    by_cases hlast : (first :: rest).getLast (by simp) = []
    · refine ⟨pre, c, post, lead, p, _, ['/'], hsplit, hpre, hc, rfl, hcase,
        Or.inl ⟨rfl, by rw [hl, hlast]⟩, ?_, hpne, hplast, hphead, hpin, hqs, ?_⟩
      · unfold finish
        rw [if_neg hnn, hpwe, hres]
        simp [hlast]
      · unfold finish
        rw [if_neg hnn, hpwe, hres]
        simp only [hlast, decide_True, if_true]
        rw [countDoubleSep_append _ _ (Or.inl hlast1), hcount1, hcount0]
        simp [countDoubleSep]
    · refine ⟨pre, c, post, lead, p, _, [], hsplit, hpre, hc, rfl, hcase,
        Or.inr ⟨rfl, by rw [hl]; simpa using hlast⟩, ?_, hpne, hplast, hphead, hpin, hqs, ?_⟩
      · unfold finish
        rw [if_neg hnn, hpwe, hres]
        simp [hlast]
      · unfold finish
        rw [if_neg hnn, hpwe, hres]
        simp only [hlast, decide_False, Bool.false_eq_true, if_false]
        rw [hcount1, hcount0]

end Librepo
